import Mathlib

/-!
# Deck builder (`deck.go`): shallow embedding and verified properties

The Go package builds a playing-card deck from a list of option mutators.
`New` assembles the `Options` record, generates the 52 base cards and hands
them to `applyOptions`, which sorts (`sort.Slice`), shuffles (`rand.Shuffle`),
appends jokers and filters by rank, in that order.

Conventions of the embedding:

* a slice is a `List`; `nil` slices and `nil` functions are `Option.none`;
* Go `int` values that are only ever indices are `Nat`; the two option
  fields of type `int` that a caller can set to any value are `Int`;
* a run-time panic (index out of range) is `none`, so every operation that
  swaps slice elements returns an `Option`;
* loops that count upwards carry an explicit fuel argument and return
  `none` when it runs out; loops that count down to zero recurse on the
  counter itself;
* the random source of `rand.Shuffle` is a function `rnd` giving, for each
  loop position `i`, the raw value drawn there; the index used is
  `rnd i % (i + 1)`, so every outcome of the generator is some `rnd`.
-/

namespace Decks

/-! ## Data model -/

/-- Go `type Card struct { Suit string; Rank string }`. -/
structure Card where
  Suit : String
  Rank : String
deriving DecidableEq, Repr

/-- Go `type Options struct`: `sorting` is a nillable comparator over
positions, `filterRanks` a nillable slice. -/
structure Options where
  sorting : Option (Nat → Nat → Bool)
  shuffle : Bool
  numJokers : Int
  filterRanks : Option (List String)
  composedDeck : Int

/-- Go `type DeckOption func(*Options)`: a mutator of the record. -/
abbrev DeckOption := Options → Options

/-- Go `WithSorting`: `o.sorting = less`. -/
def WithSorting (less : Nat → Nat → Bool) : DeckOption :=
  fun o => { o with sorting := some less }

/-- Go `WithShuffle`: `o.shuffle = true`. -/
def WithShuffle : DeckOption :=
  fun o => { o with shuffle := true }

/-- Go `WithJokers`: `o.numJokers = numJokers`. -/
def WithJokers (numJokers : Int) : DeckOption :=
  fun o => { o with numJokers := numJokers }

/-- Go `WithFilterRanks`: `o.filterRanks = filter` (the argument may be a nil slice). -/
def WithFilterRanks (filter : Option (List String)) : DeckOption :=
  fun o => { o with filterRanks := filter }

/-- Go `WithComposedDeck`: `o.composedDeck = numDecks`. -/
def WithComposedDeck (numDecks : Int) : DeckOption :=
  fun o => { o with composedDeck := numDecks }

/-! ## Slice element exchange -/

/-- The exchange `data[i], data[j] = data[j], data[i]` (the closure given to
`rand.Shuffle`, and the `reflect.Swapper` used by `sort.Slice`).  An index
outside the slice panics. -/
def swap {α : Type} (data : List α) (i j : Nat) : Option (List α) :=
  if hi : i < data.length then
    if hj : j < data.length then
      some ((data.set i data[j]).set j data[i])
    else none
  else none

/-! ## `sort.Slice` (Go standard library, pattern-defeating quicksort)

`sort.Slice(cards, less)` runs `pdqsort_func(lessSwap{less, swap}, 0, n, bits.Len(n))`
(Go 1.19 and later).  The functions below follow `sort/zsortfunc.go` and `sort/sort.go`;
`data.Less(i, j)` is the caller's `less i j` and `data.Swap(i, j)` is `swap data i j`.
The comparator handed over by `applyOptions` is `opt.sorting` itself, a function of the two
positions only: the slice being sorted is local to `New`, out of the caller's reach. -/

/-- Go `insertionSort_func`, inner loop:
`for j := i; j > a && data.Less(j, j-1); j-- { data.Swap(j, j-1) }`. -/
def insertionSortInner {α : Type} (less : Nat → Nat → Bool) (a : Nat) :
    Nat → List α → Option (List α)
  | 0, data => some data
  | j + 1, data =>
    if a < j + 1 ∧ less (j + 1) j = true then
      (swap data (j + 1) j).bind (insertionSortInner less a j)
    else some data

/-- Go `insertionSort_func`, outer loop: `for i := a + 1; i < b; i++ { ... }`. -/
def insertionSortLoop {α : Type} (less : Nat → Nat → Bool) (a b : Nat) :
    Nat → Nat → List α → Option (List α)
  | 0, _, _ => none
  | fuel + 1, i, data =>
    if i < b then
      (insertionSortInner less a i data).bind (insertionSortLoop less a b fuel (i + 1))
    else some data

/-- Go `insertionSort_func(data, a, b)`: sorts `data[a:b]` by insertion. -/
def insertionSort_func {α : Type} (less : Nat → Nat → Bool) (data : List α) (a b : Nat) :
    Option (List α) :=
  insertionSortLoop less a b (b - a + 1) (a + 1) data

/-- Go `siftDown_func(data, lo, hi, first)`; the loop variable `root` starts at `lo`. -/
def siftDown_func {α : Type} (less : Nat → Nat → Bool) (hi first : Nat) :
    Nat → Nat → List α → Option (List α)
  | 0, _, _ => none
  | fuel + 1, root, data =>
    let child := 2 * root + 1
    if child ≥ hi then some data
    else
      let child := if child + 1 < hi ∧ less (first + child) (first + child + 1) = true
        then child + 1 else child
      if less (first + root) (first + child) = false then some data
      else (swap data (first + root) (first + child)).bind (siftDown_func less hi first fuel child)

/-- Go `heapSort_func`, first loop: `for i := (hi - 1) / 2; i >= 0; i-- { siftDown(i, hi) }`;
the argument is the number of iterations left, `i + 1`. -/
def heapBuild {α : Type} (less : Nat → Nat → Bool) (hi first : Nat) :
    Nat → List α → Option (List α)
  | 0, data => some data
  | i + 1, data =>
    (siftDown_func less hi first (hi + 1) i data).bind (heapBuild less hi first i)

/-- Go `heapSort_func`, second loop:
`for i := hi - 1; i >= 0; i-- { data.Swap(first, first+i); siftDown(lo, i) }` with `lo = 0`;
the argument is the number of iterations left, `i + 1`. -/
def heapPop {α : Type} (less : Nat → Nat → Bool) (first : Nat) :
    Nat → List α → Option (List α)
  | 0, data => some data
  | i + 1, data =>
    (swap data first (first + i)).bind fun d =>
      (siftDown_func less i first (i + 1) 0 d).bind (heapPop less first i)

/-- Go `heapSort_func(data, a, b)`. -/
def heapSort_func {α : Type} (less : Nat → Nat → Bool) (data : List α) (a b : Nat) :
    Option (List α) :=
  let first := a
  let hi := b - a
  (heapBuild less hi first ((hi - 1) / 2 + 1) data).bind (heapPop less first hi)

/-- Go `sortedHint`: what `choosePivot_func` learnt about the range. -/
inductive sortedHint where
  | unknownHint
  | increasingHint
  | decreasingHint
deriving DecidableEq, Repr

/-- Go `order2_func(data, a, b, swaps)`: returns `(b, a)` and counts a swap when
`data.Less(b, a)`, else `(a, b)`.  The counter `*swaps` is returned as third component. -/
def order2_func (less : Nat → Nat → Bool) (a b swaps : Nat) : Nat × Nat × Nat :=
  if less b a = true then (b, a, swaps + 1) else (a, b, swaps)

/-- Go `median_func(data, a, b, c, swaps)`: three `order2_func` calls, returns the middle index
(and the counter). -/
def median_func (less : Nat → Nat → Bool) (a b c swaps : Nat) : Nat × Nat :=
  let r1 := order2_func less a b swaps
  let r2 := order2_func less r1.2.1 c r1.2.2
  let r3 := order2_func less r1.1 r2.1 r2.2.2
  (r3.2.1, r3.2.2)

/-- Go `medianAdjacent_func(data, a, swaps)`: median of positions `a-1`, `a`, `a+1`. -/
def medianAdjacent_func (less : Nat → Nat → Bool) (a swaps : Nat) : Nat × Nat :=
  median_func less (a - 1) a (a + 1) swaps

/-- Go `choosePivot_func(data, a, b)`: a static pivot below 8 elements, median of three below
50 (`shortestNinther`), Tukey ninther from 50 on; the hint is `increasingHint` when no
exchange was counted and `decreasingHint` when all 12 (`maxSwaps`) were. -/
def choosePivot_func (less : Nat → Nat → Bool) (a b : Nat) : Nat × sortedHint :=
  let l := b - a
  let i := a + l / 4 * 1
  let j := a + l / 4 * 2
  let k := a + l / 4 * 3
  let r :=
    if l ≥ 8 then
      if l ≥ 50 then
        let ri := medianAdjacent_func less i 0
        let rj := medianAdjacent_func less j ri.2
        let rk := medianAdjacent_func less k rj.2
        median_func less ri.1 rj.1 rk.1 rk.2
      else median_func less i j k 0
    else (j, 0)
  if r.2 = 0 then (r.1, sortedHint.increasingHint)
  else if r.2 = 4 * 3 then (r.1, sortedHint.decreasingHint)
  else (r.1, sortedHint.unknownHint)

/-- Go `reverseRange_func`, loop `for i < j { data.Swap(i, j); i++; j-- }`. -/
def reverseRangeLoop {α : Type} : Nat → Nat → Nat → List α → Option (List α)
  | 0, _, _, _ => none
  | fuel + 1, i, j, data =>
    if i < j then (swap data i j).bind (reverseRangeLoop fuel (i + 1) (j - 1))
    else some data

/-- Go `reverseRange_func(data, a, b)`: `i := a; j := b - 1` and the loop above. -/
def reverseRange_func {α : Type} (data : List α) (a b : Nat) : Option (List α) :=
  reverseRangeLoop (b - a + 1) a (b - 1) data

/-- An index scan `for i <= j && test(i) { i++ }`; returns the final `i`. -/
def scanUp (test : Nat → Bool) (j : Nat) : Nat → Nat → Option Nat
  | 0, _ => none
  | fuel + 1, i => if i ≤ j ∧ test i = true then scanUp test j fuel (i + 1) else some i

/-- An index scan `for i <= j && test(j) { j-- }`; returns the final `j`.  In both partition
functions `i ≥ a + 1 ≥ 1`, so the loop condition is false at `j = 0`. -/
def scanDown (test : Nat → Bool) (i : Nat) : Nat → Nat
  | 0 => 0
  | j + 1 => if i ≤ j + 1 ∧ test (j + 1) = true then scanDown test i j else j + 1

/-- Go `partition_func`, the `for { ... }` loop: two scans, `if i > j { break }`,
`data.Swap(i, j); i++; j--`.  Returns the slice and `j` at the break. -/
def partitionLoop {α : Type} (less : Nat → Nat → Bool) (a : Nat) :
    Nat → Nat → Nat → List α → Option (List α × Nat)
  | 0, _, _, _ => none
  | fuel + 1, i, j, data =>
    (scanUp (fun x => less x a) j (j + 2) i).bind fun i =>
      let j := scanDown (fun x => !less x a) i j
      if i > j then some (data, j)
      else (swap data i j).bind (partitionLoop less a fuel (i + 1) (j - 1))

/-- Go `partition_func(data, a, b, pivot)`: one quicksort partition; returns the slice, the
new pivot position and `alreadyPartitioned`. -/
def partition_func {α : Type} (less : Nat → Nat → Bool) (data : List α) (a b pivot : Nat) :
    Option (List α × Nat × Bool) :=
  (swap data a pivot).bind fun data =>
    (scanUp (fun x => less x a) (b - 1) (b + 1) (a + 1)).bind fun i =>
      let j := scanDown (fun x => !less x a) i (b - 1)
      if i > j then (swap data j a).map fun d => (d, j, true)
      else
        (swap data i j).bind fun data =>
          (partitionLoop less a (b - a + 1) (i + 1) (j - 1) data).bind fun r =>
            (swap r.1 r.2 a).map fun d => (d, r.2, false)

/-- Go `partitionEqual_func`, the `for { ... }` loop; returns the slice and `i` at the break. -/
def partitionEqualLoop {α : Type} (less : Nat → Nat → Bool) (a : Nat) :
    Nat → Nat → Nat → List α → Option (List α × Nat)
  | 0, _, _, _ => none
  | fuel + 1, i, j, data =>
    (scanUp (fun x => !less a x) j (j + 2) i).bind fun i =>
      let j := scanDown (fun x => less a x) i j
      if i > j then some (data, i)
      else (swap data i j).bind (partitionEqualLoop less a fuel (i + 1) (j - 1))

/-- Go `partitionEqual_func(data, a, b, pivot)`: elements equal to the pivot first; returns the
slice and the new start. -/
def partitionEqual_func {α : Type} (less : Nat → Nat → Bool) (data : List α) (a b pivot : Nat) :
    Option (List α × Nat) :=
  (swap data a pivot).bind (partitionEqualLoop less a (b - a + 1) (a + 1) (b - 1))

/-- Go `partialInsertionSort_func`, left shift:
`for j := i - 1; j >= 1; j-- { if !data.Less(j, j-1) { break }; data.Swap(j, j-1) }`. -/
def shiftSmaller {α : Type} (less : Nat → Nat → Bool) : Nat → List α → Option (List α)
  | 0, data => some data
  | j + 1, data =>
    if less (j + 1) j = false then some data
    else (swap data (j + 1) j).bind (shiftSmaller less j)

/-- Go `partialInsertionSort_func`, right shift:
`for j := i + 1; j < b; j++ { if !data.Less(j, j-1) { break }; data.Swap(j, j-1) }`. -/
def shiftGreater {α : Type} (less : Nat → Nat → Bool) (b : Nat) :
    Nat → Nat → List α → Option (List α)
  | 0, _, _ => none
  | fuel + 1, j, data =>
    if j < b then
      if less j (j - 1) = false then some data
      else (swap data j (j - 1)).bind (shiftGreater less b fuel (j + 1))
    else some data

/-- Go `partialInsertionSort_func`, the loop `for j := 0; j < maxSteps; j++`; the first
argument is the number of steps left.  Returns the slice and whether it is sorted at the end.
`shortestShifting` is 50.  The scan `for i < b && !data.Less(i, i-1) { i++ }` is `scanUp` with
bound `b - 1`, as `i ≥ a + 1 ≥ 1` throughout. -/
def partialInsertionSortLoop {α : Type} (less : Nat → Nat → Bool) (a b : Nat) :
    Nat → Nat → List α → Option (List α × Bool)
  | 0, _, data => some (data, false)
  | steps + 1, i, data =>
    (scanUp (fun x => !less x (x - 1)) (b - 1) (b + 1) i).bind fun i =>
      if i = b then some (data, true)
      else if b - a < 50 then some (data, false)
      else
        (swap data i (i - 1)).bind fun data =>
          (if i - a ≥ 2 then shiftSmaller less (i - 1) data else some data).bind fun data =>
            (if b - i ≥ 2 then shiftGreater less b (b - i + 1) (i + 1) data
              else some data).bind fun data =>
              partialInsertionSortLoop less a b steps i data

/-- Go `partialInsertionSort_func(data, a, b)`: `maxSteps` is 5 and `i := a + 1`. -/
def partialInsertionSort_func {α : Type} (less : Nat → Nat → Bool) (data : List α) (a b : Nat) :
    Option (List α × Bool) :=
  partialInsertionSortLoop less a b 5 (a + 1) data

/-- Go `bits.Len(x)`: the number of bits needed to write `x` (0 for 0). -/
def bitsLen : Nat → Nat → Nat
  | 0, _ => 0
  | fuel + 1, x => if x = 0 then 0 else bitsLen fuel (x / 2) + 1

/-- Go `(*xorshift).Next` on a `uint64` state: `r ^= r << 13; r ^= r >> 7; r ^= r << 17`
(the 64-bit xorshift triple); shifts to the left are cut to 64 bits. -/
def xorshiftNext (r : Nat) : Nat :=
  let r := r ^^^ (r <<< 13 % 2 ^ 64)
  let r := r ^^^ (r >>> 7)
  r ^^^ (r <<< 17 % 2 ^ 64)

/-- Go `nextPowerOfTwo(length)`: `1 << bits.Len(length)`. -/
def nextPowerOfTwo (length : Nat) : Nat :=
  2 ^ bitsLen length length

/-- Go `breakPatterns_func`, the loop `for i := 0; i < 3; i++`; the first argument is the number
of iterations left, `random` the generator state. -/
def breakPatternsLoop {α : Type} (a length modulus idx : Nat) :
    Nat → Nat → List α → Option (List α)
  | 0, _, data => some data
  | k + 1, random, data =>
    let i := 2 - k
    let random := xorshiftNext random
    let other := random &&& (modulus - 1)
    let other := if other ≥ length then other - length else other
    (swap data (idx + i) (a + other)).bind (breakPatternsLoop a length modulus idx k random)

/-- Go `breakPatterns_func(data, a, b)`: with `idx := a + (length/4)*2 - 1`, the positions
`idx`, `idx + 1`, `idx + 2` (25, 26, 27 on a range 0..51) are each exchanged with a
pseudo-random position `a + other` of the range. -/
def breakPatterns_func {α : Type} (data : List α) (a b : Nat) : Option (List α) :=
  let length := b - a
  if length ≥ 8 then
    breakPatternsLoop a length (nextPowerOfTwo length) (a + (length / 4) * 2 - 1) 3 length data
  else some data

/-- Go `pdqsort_func(data, a, b, limit)`, one pass of its `for` loop per unit of fuel.
`wasBalanced` and `wasPartitioned` are the function's two local flags (both `true` on entry);
`maxInsertion` is 12. -/
def pdqsortLoop {α : Type} (less : Nat → Nat → Bool) :
    Nat → List α → Nat → Nat → Nat → Bool → Bool → Option (List α)
  | 0, _, _, _, _, _, _ => none
  | fuel + 1, data, a, b, limit, wasBalanced, wasPartitioned =>
    let length := b - a
    if length ≤ 12 then insertionSort_func less data a b
    else if limit = 0 then heapSort_func less data a b
    else
      (if wasBalanced = false then (breakPatterns_func data a b).map fun d => (d, limit - 1)
        else some (data, limit)).bind fun s1 =>
      let limit := s1.2
      let ph := choosePivot_func less a b
      (if ph.2 = sortedHint.decreasingHint then
          (reverseRange_func s1.1 a b).map fun d =>
            (d, (b - 1) - (ph.1 - a), sortedHint.increasingHint)
        else some (s1.1, ph.1, ph.2)).bind fun s2 =>
      let pivot := s2.2.1
      (if wasBalanced = true ∧ wasPartitioned = true ∧ s2.2.2 = sortedHint.increasingHint then
          partialInsertionSort_func less s2.1 a b
        else some (s2.1, false)).bind fun s3 =>
      if s3.2 = true then some s3.1
      else if a > 0 ∧ less (a - 1) pivot = false then
        (partitionEqual_func less s3.1 a b pivot).bind fun s4 =>
          pdqsortLoop less fuel s4.1 s4.2 b limit wasBalanced wasPartitioned
      else
        (partition_func less s3.1 a b pivot).bind fun s4 =>
          let mid := s4.2.1
          let leftLen := mid - a
          let rightLen := b - mid
          let balanceThreshold := length / 8
          if leftLen < rightLen then
            (pdqsortLoop less fuel s4.1 a mid limit true true).bind fun d =>
              pdqsortLoop less fuel d (mid + 1) b limit
                (decide (leftLen ≥ balanceThreshold)) s4.2.2
          else
            (pdqsortLoop less fuel s4.1 (mid + 1) b limit true true).bind fun d =>
              pdqsortLoop less fuel d a mid limit
                (decide (rightLen ≥ balanceThreshold)) s4.2.2

/-- Go `pdqsort_func(data, a, b, limit)`. -/
def pdqsort_func {α : Type} (less : Nat → Nat → Bool) (data : List α) (a b limit : Nat) :
    Option (List α) :=
  pdqsortLoop less (b - a + 1) data a b limit true true

/-- Go `sort.Slice(x, less)`: `pdqsort_func(lessSwap{less, swap}, 0, length, bits.Len(length))`. -/
def sortSlice {α : Type} (less : Nat → Nat → Bool) (x : List α) : Option (List α) :=
  pdqsort_func less x 0 x.length (bitsLen x.length x.length)

/-! ## `rand.Shuffle` -/

/-- Go `rand.Shuffle`, the Fisher-Yates loop `for ; i > 0; i-- { j := Intn(i + 1); swap(i, j) }`;
`rnd i` is the raw value drawn at position `i`. -/
def shuffleLoop {α : Type} (rnd : Nat → Nat) : Nat → List α → Option (List α)
  | 0, data => some data
  | i + 1, data =>
    (swap data (i + 1) (rnd (i + 1) % (i + 2))).bind (shuffleLoop rnd i)

/-- Go `rand.Shuffle(len(cards), swap)`: the loop starts at `i := n - 1`. -/
def randShuffle {α : Type} (rnd : Nat → Nat) (data : List α) : Option (List α) :=
  shuffleLoop rnd (data.length - 1) data

/-! ## The deck builder -/

/-- Go `contains(slice, str)`: linear search with string equality. -/
def contains : List String → String → Bool
  | [], _ => false
  | s :: rest, str => if s = str then true else contains rest str

/-- The joker card appended by `applyOptions`. -/
def joker : Card := { Rank := "Joker", Suit := "Joker" }

/-- Go `for i := 0; i < opt.numJokers; i++ { cards = append(cards, joker) }`: the body runs
for `i = 0, ..., numJokers - 1`, not at all when `numJokers ≤ 0`. -/
def appendJokers (numJokers : Int) (cards : List Card) : List Card :=
  (List.range numJokers.toNat).foldl (fun cs _ => cs ++ [joker]) cards

/-- Go filter loop of `applyOptions`: keeps, in order, each card whose rank is not in
`filterRanks`. -/
def filterLoop (filterRanks : List String) (cards : List Card) : List Card :=
  cards.foldl (fun filteredCards card =>
    if contains filterRanks card.Rank = false then filteredCards ++ [card]
    else filteredCards) []

/-- Go `applyOptions(cards, opt)`: sort, shuffle, append jokers, filter. -/
def applyOptions (rnd : Nat → Nat) (cards : List Card) (opt : Options) : Option (List Card) :=
  (match opt.sorting with
    | some less => sortSlice less cards
    | none => some cards).bind fun cards =>
  (if opt.shuffle = true then randShuffle rnd cards else some cards).bind fun cards =>
  let cards := appendJokers opt.numJokers cards
  let cards := match opt.filterRanks with
    | some filterRanks => filterLoop filterRanks cards
    | none => cards
  some cards

/-- The four suits, in the order of the Go literal. -/
def suits : List String := ["Hearts", "Diamonds", "Clubs", "Spades"]

/-- The card appended for one `rank` of the inner loop of `New`; `strconv.Itoa` is the decimal
representation. -/
def rankCard (suit : String) (rank : Nat) : Card :=
  if rank = 11 then { Rank := "J", Suit := suit }
  else if rank = 12 then { Rank := "Q", Suit := suit }
  else if rank = 13 then { Rank := "K", Suit := suit }
  else { Rank := toString rank, Suit := suit }

/-- The generation loops of `New`: `for _, suit := range suits { for rank := 1; rank <= 13;
rank++ { cards = append(cards, ...) } }`, starting from the nil slice. -/
def generate : List Card :=
  suits.foldl (fun cards suit =>
    (List.range' 1 13).foldl (fun cards rank => cards ++ [rankCard suit rank]) cards) []

/-- The defaults of `New`: `&Options{nil, false, 0, nil, 1}`. -/
def defaultOptions : Options :=
  { sorting := none, shuffle := false, numJokers := 0, filterRanks := none, composedDeck := 1 }

/-- The record `opt` of `New` after its loop `for _, option := range options { option(opt) }`:
the mutators applied in order to the defaults. -/
def collectOptions (options : List DeckOption) : Options :=
  options.foldl (fun opt option => option opt) defaultOptions

/-- Go `New(options...)`: applies the mutators in order to the defaults, generates the cards and
applies the options. -/
def New (rnd : Nat → Nat) (options : List DeckOption) : Option (List Card) :=
  applyOptions rnd generate (collectOptions options)

/-- The standard deck as a literal: suits in the order Hearts, Diamonds, Clubs, Spades and,
within each suit, the ranks "1" to "10", "J", "Q", "K". -/
def standardDeck : List Card :=
  (["Hearts", "Diamonds", "Clubs", "Spades"].map fun s =>
    ["1", "2", "3", "4", "5", "6", "7", "8", "9", "10", "J", "Q", "K"].map fun r =>
      ({ Suit := s, Rank := r } : Card)).flatten

/-! ## Definitions used to state and prove the properties -/

/-- The result `r` is a value `v` (no panic, fuel not exhausted) satisfying `P`. -/
def Holds {γ : Type} (P : γ → Prop) (r : Option γ) : Prop := ∃ v, r = some v ∧ P v

/-- A slice is a rearrangement of `xs`. -/
abbrev PermOf {α : Type} (xs : List α) : List α → Prop := fun ys => ys.Perm xs

/-- A result pair: a rearrangement of `xs` and an index with `lo ≤ index < hi`. -/
abbrev PermIdx {α : Type} (xs : List α) (lo hi : Nat) : List α × Nat → Prop :=
  fun r => r.1.Perm xs ∧ lo ≤ r.2 ∧ r.2 < hi

/-- The sort and shuffle steps of `applyOptions`. -/
def arrange (rnd : Nat → Nat) (cards : List Card) (opt : Options) : Option (List Card) :=
  (match opt.sorting with
    | some less => sortSlice less cards
    | none => some cards).bind fun cards =>
  if opt.shuffle = true then randShuffle rnd cards else some cards

/-- The joker and filter steps of `applyOptions`, in closed form. -/
def finish (numJokers : Int) (filterRanks : Option (List String)) (cards : List Card) :
    List Card :=
  match filterRanks with
  | some S => (cards ++ List.replicate numJokers.toNat joker).filter fun c => decide (c.Rank ∉ S)
  | none => cards ++ List.replicate numJokers.toNat joker

/-- A call of one of the five exported option constructors; a caller outside the package can
build a `DeckOption` in no other way (the fields of `Options` are unexported). -/
inductive OptionCall where
  | withSorting (less : Nat → Nat → Bool)
  | withShuffle
  | withJokers (numJokers : Int)
  | withFilterRanks (filter : Option (List String))
  | withComposedDeck (numDecks : Int)

/-- The mutator a constructor call returns. -/
def OptionCall.mutator : OptionCall → DeckOption
  | .withSorting less => WithSorting less
  | .withShuffle => WithShuffle
  | .withJokers numJokers => WithJokers numJokers
  | .withFilterRanks filter => WithFilterRanks filter
  | .withComposedDeck numDecks => WithComposedDeck numDecks

/-- The number of cards, jokers included, whose rank is in the filter set, among the 52 base
cards followed by the appended jokers (0 when no filter set is supplied). -/
def removed (numJokers : Int) (filterRanks : Option (List String)) : Nat :=
  match filterRanks with
  | some S =>
    ((standardDeck ++ List.replicate numJokers.toNat joker).filter fun c =>
      decide (c.Rank ∈ S)).length
  | none => 0

/-- Two records agree on every field but `composedDeck`. -/
def SameButComposed (o1 o2 : Options) : Prop :=
  o1.sorting = o2.sorting ∧ o1.shuffle = o2.shuffle ∧ o1.numJokers = o2.numJokers ∧
    o1.filterRanks = o2.filterRanks

/-- The positional comparator a caller builds from an ordering `lt` on cards:
`less(i, j) := lt(base[i], base[j])`, `base` being the unsorted base deck.  `sort.Slice` only
passes positions below 52, where the default of `getD` plays no part. -/
def positional (lt : Card → Card → Bool) (i j : Nat) : Bool :=
  lt (generate.getD i joker) (generate.getD j joker)

/-- The index of a card's suit in the order Hearts, Diamonds, Clubs, Spades (4 for a joker). -/
def suitIndex (c : Card) : Nat := suits.indexOf c.Suit

/-- An ordering on cards that compares suits only, later suits first; two cards of one suit
are equal-order. -/
def laterSuitFirst (c1 c2 : Card) : Bool := decide (suitIndex c2 < suitIndex c1)

/-- A comparator on positions that compares suits only, earlier suits first (`i / 13` is the
suit index of base position `i`); the base deck is already in this order. -/
def earlierSuitFirst (i j : Nat) : Bool := decide (i / 13 < j / 13)

/-- A strict weak ordering: irreflexive, transitive, and with a transitive "neither is less"
(equal-order) relation. -/
def StrictWeak {α : Type} (lt : α → α → Bool) : Prop :=
  (∀ x, lt x x = false) ∧
  (∀ x y z, lt x y = true → lt y z = true → lt x z = true) ∧
  (∀ x y z, lt x y = false → lt y x = false → lt y z = false → lt z y = false →
    lt x z = false ∧ lt z x = false)

/-- The field of `Options` that a constructor call sets: 0 `sorting`, 1 `shuffle`,
2 `numJokers`, 3 `filterRanks`, 4 `composedDeck`. -/
def OptionCall.field : OptionCall → Nat
  | .withSorting _ => 0
  | .withShuffle => 1
  | .withJokers _ => 2
  | .withFilterRanks _ => 3
  | .withComposedDeck _ => 4

set_option maxRecDepth 100000

/-! ## Results of fallible steps -/

theorem Holds.intro {γ : Type} {P : γ → Prop} {v : γ} (h : P v) : Holds P (some v) :=
  ⟨v, rfl, h⟩

theorem Holds.bind {γ δ : Type} {P : γ → Prop} {Q : δ → Prop} {r : Option γ}
    {f : γ → Option δ} (h : Holds P r) (hf : ∀ v, P v → Holds Q (f v)) :
    Holds Q (r.bind f) := by
  obtain ⟨v, rfl, hv⟩ := h
  exact hf v hv

theorem Holds.map {γ δ : Type} {P : γ → Prop} {Q : δ → Prop} {r : Option γ}
    {f : γ → δ} (h : Holds P r) (hf : ∀ v, P v → Q (f v)) :
    Holds Q (r.map f) := by
  obtain ⟨v, rfl, hv⟩ := h
  exact ⟨f v, rfl, hf v hv⟩

theorem Holds.mono {γ : Type} {P Q : γ → Prop} {r : Option γ}
    (h : Holds P r) (hf : ∀ v, P v → Q v) : Holds Q r := by
  obtain ⟨v, rfl, hv⟩ := h
  exact ⟨v, rfl, hf v hv⟩

/-- Overwriting position `k` of `t` with `x` and putting the old entry in front is a
rearrangement of `x :: t`. -/
theorem cons_set_perm {α : Type} (x : α) :
    ∀ (t : List α) (k : Nat) (hk : k < t.length), (t[k] :: t.set k x).Perm (x :: t)
  | [], k, hk => by simp at hk
  | y :: t, 0, _ => by simpa using List.Perm.swap x y t
  | y :: t, k + 1, hk => by
    have ih := cons_set_perm x t k (by simpa using hk)
    simp only [List.getElem_cons_succ, List.set_cons_succ]
    exact (List.Perm.swap y _ _).trans (((ih.cons y)).trans (List.Perm.swap x y t))

theorem set_set_perm_lt {α : Type} :
    ∀ (xs : List α) (i j : Nat) (hi : i < xs.length) (hj : j < xs.length), i < j →
      ((xs.set i xs[j]).set j xs[i]).Perm xs
  | [], i, _, hi, _, _ => by simp at hi
  | x :: t, 0, j + 1, _, hj, _ => by
    simpa using cons_set_perm x t j (by simpa using hj)
  | x :: t, i + 1, j + 1, hi, hj, hij => by
    have ih := set_set_perm_lt t i j (by simpa using hi) (by simpa using hj) (by omega)
    simpa using ih

theorem set_set_perm {α : Type} (xs : List α) (i j : Nat) (hi : i < xs.length)
    (hj : j < xs.length) : ((xs.set i xs[j]).set j xs[i]).Perm xs := by
  rcases Nat.lt_trichotomy i j with h | h | h
  · exact set_set_perm_lt xs i j hi hj h
  · subst h
    have hself : xs.set i xs[i] = xs := by
      apply List.ext_getElem
      · simp
      · intro n h1 h2
        rw [List.getElem_set]
        split
        · next h => subst h; rfl
        · rfl
    rw [List.set_set, hself]
  · rw [List.set_comm _ _ _ (Nat.ne_of_gt h)]
    exact set_set_perm_lt xs j i hj hi h

theorem swap_holds {α : Type} (xs : List α) (i j : Nat) (hi : i < xs.length)
    (hj : j < xs.length) : Holds (fun ys => ys.Perm xs) (swap xs i j) := by
  unfold swap
  rw [dif_pos hi, dif_pos hj]
  exact Holds.intro (set_set_perm xs i j hi hj)


/-! ## `sort.Slice` and `rand.Shuffle` return a rearrangement, for every comparator -/

theorem Holds.andThen {α : Type} {xs : List α} {r : Option (List α)}
    {f : List α → Option (List α)} (h : Holds (PermOf xs) r)
    (hf : ∀ ys, ys.length = xs.length → Holds (PermOf ys) (f ys)) :
    Holds (PermOf xs) (r.bind f) :=
  h.bind fun ys hys => (hf ys hys.length_eq).mono fun _ hzs => hzs.trans hys

theorem insertionSortInner_holds {α : Type} (less : Nat → Nat → Bool) (a : Nat) :
    ∀ (j : Nat) (xs : List α), j < xs.length →
      Holds (PermOf xs) (insertionSortInner less a j xs)
  | 0, xs, _ => Holds.intro (List.Perm.refl xs)
  | j + 1, xs, hj => by
    unfold insertionSortInner
    split
    · exact (swap_holds xs (j + 1) j hj (by omega)).andThen fun ys hys =>
        insertionSortInner_holds less a j ys (by omega)
    · exact Holds.intro (List.Perm.refl xs)

theorem insertionSortLoop_holds {α : Type} (less : Nat → Nat → Bool) (a b : Nat) :
    ∀ (fuel i : Nat) (xs : List α), b ≤ xs.length → 0 < fuel → b + 1 ≤ fuel + i →
      Holds (PermOf xs) (insertionSortLoop less a b fuel i xs)
  | 0, _, _, _, h0, _ => absurd h0 (by omega)
  | fuel + 1, i, xs, hb, _, hf => by
    unfold insertionSortLoop
    by_cases hi : i < b
    · rw [if_pos hi]
      exact (insertionSortInner_holds less a i xs (by omega)).andThen fun ys hys =>
        insertionSortLoop_holds less a b fuel (i + 1) ys (by omega) (by omega) (by omega)
    · rw [if_neg hi]
      exact Holds.intro (List.Perm.refl xs)

theorem insertionSort_holds {α : Type} (less : Nat → Nat → Bool) (xs : List α) (a b : Nat)
    (hb : b ≤ xs.length) : Holds (PermOf xs) (insertionSort_func less xs a b) :=
  insertionSortLoop_holds less a b _ _ xs hb (by omega) (by omega)

theorem siftDown_holds {α : Type} (less : Nat → Nat → Bool) (hi first : Nat) :
    ∀ (fuel root : Nat) (xs : List α), first + hi ≤ xs.length → 0 < fuel → hi < fuel + root →
      Holds (PermOf xs) (siftDown_func less hi first fuel root xs)
  | 0, _, _, _, h0, _ => absurd h0 (by omega)
  | fuel + 1, root, xs, hlen, _, hf => by
    unfold siftDown_func
    simp only
    by_cases hc : 2 * root + 1 ≥ hi
    · rw [if_pos hc]
      exact Holds.intro (List.Perm.refl xs)
    · rw [if_neg hc]
      have key : ∀ c, 2 * root + 1 ≤ c → c < hi →
          Holds (PermOf xs) (if less (first + root) (first + c) = false then some xs
            else (swap xs (first + root) (first + c)).bind
              (siftDown_func less hi first fuel c)) := by
        intro c hc1 hc2
        by_cases hl : less (first + root) (first + c) = false
        · rw [if_pos hl]
          exact Holds.intro (List.Perm.refl xs)
        · rw [if_neg hl]
          exact (swap_holds xs _ _ (by omega) (by omega)).andThen fun ys hys =>
            siftDown_holds less hi first fuel c ys (by omega) (by omega) (by omega)
      apply key
      · split <;> omega
      · split
        · rename_i h; omega
        · omega

theorem heapBuild_holds {α : Type} (less : Nat → Nat → Bool) (hi first : Nat) :
    ∀ (k : Nat) (xs : List α), first + hi ≤ xs.length →
      Holds (PermOf xs) (heapBuild less hi first k xs)
  | 0, xs, _ => Holds.intro (List.Perm.refl xs)
  | i + 1, xs, hlen => by
    unfold heapBuild
    exact (siftDown_holds less hi first _ _ xs hlen (by omega) (by omega)).andThen fun ys hys =>
      heapBuild_holds less hi first i ys (by omega)

theorem heapPop_holds {α : Type} (less : Nat → Nat → Bool) (first : Nat) :
    ∀ (k : Nat) (xs : List α), first + k ≤ xs.length →
      Holds (PermOf xs) (heapPop less first k xs)
  | 0, xs, _ => Holds.intro (List.Perm.refl xs)
  | i + 1, xs, hlen => by
    unfold heapPop
    exact (swap_holds xs _ _ (by omega) (by omega)).andThen fun ys hys =>
      (siftDown_holds less i first _ _ ys (by omega) (by omega) (by omega)).andThen fun zs hzs =>
        heapPop_holds less first i zs (by omega)

theorem heapSort_holds {α : Type} (less : Nat → Nat → Bool) (xs : List α) (a b : Nat)
    (hab : a ≤ b) (hb : b ≤ xs.length) : Holds (PermOf xs) (heapSort_func less xs a b) := by
  unfold heapSort_func
  exact (heapBuild_holds less _ _ _ xs (by omega)).andThen fun ys hys =>
    heapPop_holds less a _ ys (by omega)


theorem median_func_mem (less : Nat → Nat → Bool) (a b c s : Nat) :
    (median_func less a b c s).1 = a ∨ (median_func less a b c s).1 = b ∨
      (median_func less a b c s).1 = c := by
  unfold median_func order2_func
  by_cases h1 : less b a = true <;> by_cases h2 : less c a = true <;>
    by_cases h3 : less c b = true <;> by_cases h4 : less a c = true <;>
    by_cases h5 : less b c = true <;> by_cases h6 : less a b = true <;>
    simp [h1, h2, h3, h4, h5, h6]

theorem medianAdjacent_func_mem (less : Nat → Nat → Bool) (a s : Nat) :
    a - 1 ≤ (medianAdjacent_func less a s).1 ∧ (medianAdjacent_func less a s).1 ≤ a + 1 := by
  unfold medianAdjacent_func
  rcases median_func_mem less (a - 1) a (a + 1) s with h | h | h <;> rw [h] <;> omega

theorem choosePivot_func_bounds (less : Nat → Nat → Bool) (a b : Nat) (h : 12 < b - a) :
    a ≤ (choosePivot_func less a b).1 ∧ (choosePivot_func less a b).1 < b := by
  have key : ∀ r : Nat × Nat, (a ≤ r.1 ∧ r.1 < b) →
      (a ≤ (if r.2 = 0 then (r.1, sortedHint.increasingHint)
        else if r.2 = 4 * 3 then (r.1, sortedHint.decreasingHint)
        else (r.1, sortedHint.unknownHint)).1 ∧
      (if r.2 = 0 then (r.1, sortedHint.increasingHint)
        else if r.2 = 4 * 3 then (r.1, sortedHint.decreasingHint)
        else (r.1, sortedHint.unknownHint)).1 < b) := by
    intro r hr
    split
    · exact hr
    · split <;> exact hr
  unfold choosePivot_func
  simp only
  apply key
  rw [if_pos (by omega : b - a ≥ 8)]
  by_cases h50 : b - a ≥ 50
  · rw [if_pos h50]
    have hi := medianAdjacent_func_mem less (a + (b - a) / 4 * 1) 0
    have hj := medianAdjacent_func_mem less (a + (b - a) / 4 * 2)
      (medianAdjacent_func less (a + (b - a) / 4 * 1) 0).2
    have hk := medianAdjacent_func_mem less (a + (b - a) / 4 * 3)
      (medianAdjacent_func less (a + (b - a) / 4 * 2)
        (medianAdjacent_func less (a + (b - a) / 4 * 1) 0).2).2
    rcases median_func_mem less
      (medianAdjacent_func less (a + (b - a) / 4 * 1) 0).1
      (medianAdjacent_func less (a + (b - a) / 4 * 2)
        (medianAdjacent_func less (a + (b - a) / 4 * 1) 0).2).1
      (medianAdjacent_func less (a + (b - a) / 4 * 3)
        (medianAdjacent_func less (a + (b - a) / 4 * 2)
          (medianAdjacent_func less (a + (b - a) / 4 * 1) 0).2).2).1
      (medianAdjacent_func less (a + (b - a) / 4 * 3)
        (medianAdjacent_func less (a + (b - a) / 4 * 2)
          (medianAdjacent_func less (a + (b - a) / 4 * 1) 0).2).2).2 with h | h | h <;>
      rw [h] <;> omega
  · rw [if_neg h50]
    rcases median_func_mem less (a + (b - a) / 4 * 1) (a + (b - a) / 4 * 2)
      (a + (b - a) / 4 * 3) 0 with h | h | h <;> rw [h] <;> omega

theorem reverseRangeLoop_holds {α : Type} :
    ∀ (fuel i j : Nat) (xs : List α), j < xs.length → 0 < fuel → j + 1 ≤ fuel + i →
      Holds (PermOf xs) (reverseRangeLoop fuel i j xs)
  | 0, _, _, _, _, h0, _ => absurd h0 (by omega)
  | fuel + 1, i, j, xs, hj, _, hf => by
    unfold reverseRangeLoop
    by_cases hij : i < j
    · rw [if_pos hij]
      exact (swap_holds xs i j (by omega) hj).andThen fun ys hys =>
        reverseRangeLoop_holds fuel (i + 1) (j - 1) ys (by omega) (by omega) (by omega)
    · rw [if_neg hij]
      exact Holds.intro (List.Perm.refl xs)

theorem reverseRange_holds {α : Type} (xs : List α) (a b : Nat) (hab : a < b)
    (hb : b ≤ xs.length) : Holds (PermOf xs) (reverseRange_func xs a b) :=
  reverseRangeLoop_holds _ _ _ xs (by omega) (by omega) (by omega)

theorem scanUp_holds (test : Nat → Bool) (j : Nat) :
    ∀ (fuel i : Nat), 0 < fuel → j + 2 ≤ fuel + i →
      Holds (fun r => i ≤ r ∧ (r ≤ j + 1 ∨ r = i)) (scanUp test j fuel i)
  | 0, _, h0, _ => absurd h0 (by omega)
  | fuel + 1, i, _, hf => by
    unfold scanUp
    by_cases h : i ≤ j ∧ test i = true
    · rw [if_pos h]
      exact (scanUp_holds test j fuel (i + 1) (by omega) (by omega)).mono fun r hr => by omega
    · rw [if_neg h]
      exact Holds.intro (by omega)

theorem scanDown_bounds (test : Nat → Bool) (i : Nat) :
    ∀ j : Nat, scanDown test i j ≤ j ∧ (i ≤ scanDown test i j + 1 ∨ scanDown test i j = j)
  | 0 => by simp [scanDown]
  | j + 1 => by
    unfold scanDown
    by_cases h : i ≤ j + 1 ∧ test (j + 1) = true
    · rw [if_pos h]
      have ih := scanDown_bounds test i j
      omega
    · rw [if_neg h]
      omega


theorem Holds.andThenIdx {α : Type} {xs : List α} {lo hi : Nat} {r : Option (List α)}
    {f : List α → Option (List α × Nat)} (h : Holds (PermOf xs) r)
    (hf : ∀ ys, ys.length = xs.length → Holds (PermIdx ys lo hi) (f ys)) :
    Holds (PermIdx xs lo hi) (r.bind f) :=
  h.bind fun ys hys => (hf ys hys.length_eq).mono fun _ hzs => ⟨hzs.1.trans hys, hzs.2⟩

theorem partitionLoop_holds {α : Type} (less : Nat → Nat → Bool) (a b : Nat) :
    ∀ (fuel i j : Nat) (xs : List α), b ≤ xs.length → a < i → a ≤ j → j < b →
      0 < fuel → j + 2 ≤ fuel + i →
      Holds (PermIdx xs a b) (partitionLoop less a fuel i j xs)
  | 0, _, _, _, _, _, _, _, h0, _ => absurd h0 (by omega)
  | fuel + 1, i, j, xs, hb, hi, hj, hjb, _, hf => by
    unfold partitionLoop
    refine (scanUp_holds (fun x => less x a) j (j + 2) i (by omega) (by omega)).bind ?_
    intro i1 hi1
    simp only
    have hd := scanDown_bounds (fun x => !less x a) i1 j
    by_cases hbr : i1 > scanDown (fun x => !less x a) i1 j
    · rw [if_pos hbr]
      exact Holds.intro ⟨List.Perm.refl xs, by omega, by omega⟩
    · rw [if_neg hbr]
      exact (swap_holds xs _ _ (by omega) (by omega)).andThenIdx fun ys hys =>
        partitionLoop_holds less a b fuel _ _ ys (by omega) (by omega) (by omega) (by omega)
          (by omega) (by omega)

theorem partition_holds {α : Type} (less : Nat → Nat → Bool) (xs : List α) (a b pivot : Nat)
    (hb : b ≤ xs.length) (hp1 : a ≤ pivot) (hp2 : pivot < b) :
    Holds (fun r : List α × Nat × Bool => r.1.Perm xs ∧ a ≤ r.2.1 ∧ r.2.1 < b)
      (partition_func less xs a b pivot) := by
  unfold partition_func
  refine (swap_holds xs a pivot (by omega) (by omega)).bind ?_
  intro ys hys
  have hlen := hys.length_eq
  refine (scanUp_holds (fun x => less x a) (b - 1) (b + 1) (a + 1) (by omega) (by omega)).bind ?_
  intro i1 hi1
  simp only
  have hd := scanDown_bounds (fun x => !less x a) i1 (b - 1)
  by_cases hbr : i1 > scanDown (fun x => !less x a) i1 (b - 1)
  · rw [if_pos hbr]
    refine (swap_holds ys _ _ (by omega) (by omega)).map ?_
    intro zs hzs
    refine ⟨hzs.trans hys, ?_, ?_⟩
    · show a ≤ scanDown (fun x => !less x a) i1 (b - 1)
      omega
    · show scanDown (fun x => !less x a) i1 (b - 1) < b
      omega
  · rw [if_neg hbr]
    refine (swap_holds ys _ _ (by omega) (by omega)).bind ?_
    intro zs hzs
    have hlen2 := hzs.length_eq
    refine (partitionLoop_holds less a b (b - a + 1) _ _ zs (by omega) (by omega) (by omega)
      (by omega) (by omega) (by omega)).bind ?_
    intro r hr
    have hlen3 := hr.1.length_eq
    refine (swap_holds r.1 _ _ (by omega) (by omega)).map ?_
    intro ws hws
    exact ⟨((hws.trans hr.1).trans hzs).trans hys, hr.2.1, hr.2.2⟩

theorem partitionEqualLoop_holds {α : Type} (less : Nat → Nat → Bool) (a b : Nat) :
    ∀ (fuel i j : Nat) (xs : List α), b ≤ xs.length → a < i → i ≤ b → j < b →
      0 < fuel → j + 2 ≤ fuel + i →
      Holds (PermIdx xs (a + 1) (b + 1)) (partitionEqualLoop less a fuel i j xs)
  | 0, _, _, _, _, _, _, _, h0, _ => absurd h0 (by omega)
  | fuel + 1, i, j, xs, hb, hi, hib, hjb, _, hf => by
    unfold partitionEqualLoop
    refine (scanUp_holds (fun x => !less a x) j (j + 2) i (by omega) (by omega)).bind ?_
    intro i1 hi1
    simp only
    have hd := scanDown_bounds (fun x => less a x) i1 j
    by_cases hbr : i1 > scanDown (fun x => less a x) i1 j
    · rw [if_pos hbr]
      exact Holds.intro ⟨List.Perm.refl xs, by omega, by omega⟩
    · rw [if_neg hbr]
      exact (swap_holds xs _ _ (by omega) (by omega)).andThenIdx fun ys hys =>
        partitionEqualLoop_holds less a b fuel _ _ ys (by omega) (by omega) (by omega)
          (by omega) (by omega) (by omega)

theorem partitionEqual_holds {α : Type} (less : Nat → Nat → Bool) (xs : List α)
    (a b pivot : Nat) (hb : b ≤ xs.length) (hp1 : a ≤ pivot) (hp2 : pivot < b) :
    Holds (PermIdx xs (a + 1) (b + 1)) (partitionEqual_func less xs a b pivot) := by
  unfold partitionEqual_func
  exact (swap_holds xs a pivot (by omega) (by omega)).andThenIdx fun ys hys =>
    partitionEqualLoop_holds less a b _ _ _ ys (by omega) (by omega) (by omega) (by omega)
      (by omega) (by omega)

theorem shiftSmaller_holds {α : Type} (less : Nat → Nat → Bool) :
    ∀ (j : Nat) (xs : List α), j < xs.length → Holds (PermOf xs) (shiftSmaller less j xs)
  | 0, xs, _ => Holds.intro (List.Perm.refl xs)
  | j + 1, xs, hj => by
    unfold shiftSmaller
    by_cases h : less (j + 1) j = false
    · rw [if_pos h]
      exact Holds.intro (List.Perm.refl xs)
    · rw [if_neg h]
      exact (swap_holds xs _ _ (by omega) (by omega)).andThen fun ys hys =>
        shiftSmaller_holds less j ys (by omega)

theorem shiftGreater_holds {α : Type} (less : Nat → Nat → Bool) (b : Nat) :
    ∀ (fuel j : Nat) (xs : List α), b ≤ xs.length → 0 < fuel → b + 1 ≤ fuel + j →
      Holds (PermOf xs) (shiftGreater less b fuel j xs)
  | 0, _, _, _, h0, _ => absurd h0 (by omega)
  | fuel + 1, j, xs, hb, _, hf => by
    unfold shiftGreater
    by_cases hj : j < b
    · rw [if_pos hj]
      by_cases h : less j (j - 1) = false
      · rw [if_pos h]
        exact Holds.intro (List.Perm.refl xs)
      · rw [if_neg h]
        exact (swap_holds xs _ _ (by omega) (by omega)).andThen fun ys hys =>
          shiftGreater_holds less b fuel (j + 1) ys (by omega) (by omega) (by omega)
    · rw [if_neg hj]
      exact Holds.intro (List.Perm.refl xs)

theorem partialInsertionSortLoop_holds {α : Type} (less : Nat → Nat → Bool) (a b : Nat) :
    ∀ (steps i : Nat) (xs : List α), b ≤ xs.length → 0 < i → i ≤ b →
      Holds (fun r : List α × Bool => r.1.Perm xs) (partialInsertionSortLoop less a b steps i xs)
  | 0, _, xs, _, _, _ => Holds.intro (List.Perm.refl xs)
  | steps + 1, i, xs, hb, hi, hib => by
    unfold partialInsertionSortLoop
    refine (scanUp_holds (fun x => !less x (x - 1)) (b - 1) (b + 1) i (by omega) (by omega)).bind ?_
    intro i1 hi1
    by_cases h1 : i1 = b
    · rw [if_pos h1]
      exact Holds.intro (List.Perm.refl xs)
    · rw [if_neg h1]
      by_cases h2 : b - a < 50
      · rw [if_pos h2]
        exact Holds.intro (List.Perm.refl xs)
      · rw [if_neg h2]
        refine (swap_holds xs _ _ (by omega) (by omega)).bind ?_
        intro ys hys
        have hl1 := hys.length_eq
        have s1 : Holds (PermOf ys)
            (if i1 - a ≥ 2 then shiftSmaller less (i1 - 1) ys else some ys) := by
          split
          · exact shiftSmaller_holds less _ ys (by omega)
          · exact Holds.intro (List.Perm.refl ys)
        refine s1.bind ?_
        intro zs hzs
        have hl2 := hzs.length_eq
        have s2 : Holds (PermOf zs)
            (if b - i1 ≥ 2 then shiftGreater less b (b - i1 + 1) (i1 + 1) zs else some zs) := by
          split
          · exact shiftGreater_holds less b _ _ zs (by omega) (by omega) (by omega)
          · exact Holds.intro (List.Perm.refl zs)
        refine s2.bind ?_
        intro ws hws
        have hl3 := hws.length_eq
        exact (partialInsertionSortLoop_holds less a b steps i1 ws (by omega) (by omega)
          (by omega)).mono fun r hr => ((hr.trans hws).trans hzs).trans hys

theorem partialInsertionSort_holds {α : Type} (less : Nat → Nat → Bool) (xs : List α)
    (a b : Nat) (hab : a < b) (hb : b ≤ xs.length) :
    Holds (fun r : List α × Bool => r.1.Perm xs) (partialInsertionSort_func less xs a b) :=
  partialInsertionSortLoop_holds less a b 5 (a + 1) xs hb (by omega) (by omega)


theorem bitsLen_zero (fuel : Nat) : bitsLen fuel 0 = 0 := by
  cases fuel <;> simp [bitsLen]

theorem bitsLen_bounds :
    ∀ (fuel x : Nat), x ≤ fuel → x < 2 ^ bitsLen fuel x ∧ (0 < x → 2 ^ bitsLen fuel x ≤ 2 * x)
  | 0, x, h => by
    have : x = 0 := by omega
    subst this
    simp [bitsLen]
  | fuel + 1, x, h => by
    unfold bitsLen
    by_cases hx : x = 0
    · rw [if_pos hx]; subst hx; simp
    · rw [if_neg hx]
      have ih := bitsLen_bounds fuel (x / 2) (by omega)
      rw [Nat.pow_succ]
      refine ⟨by omega, fun _ => ?_⟩
      by_cases h2 : x / 2 = 0
      · rw [h2, bitsLen_zero]
        omega
      · have := ih.2 (by omega)
        omega

theorem breakPatternsLoop_holds {α : Type} (a length modulus idx : Nat) :
    ∀ (k random : Nat) (xs : List α), idx + 2 < xs.length → 0 < modulus →
      modulus ≤ 2 * length → a + length ≤ xs.length → 0 < length →
      Holds (PermOf xs) (breakPatternsLoop a length modulus idx k random xs)
  | 0, _, xs, _, _, _, _, _ => Holds.intro (List.Perm.refl xs)
  | k + 1, random, xs, hidx, hm, hm2, hal, hl => by
    unfold breakPatternsLoop
    simp only
    have hand : xorshiftNext random &&& (modulus - 1) ≤ modulus - 1 := Nat.and_le_right
    refine (swap_holds xs _ _ (by omega) ?_).andThen fun ys hys =>
      breakPatternsLoop_holds a length modulus idx k _ ys (by omega) hm hm2 (by omega) hl
    split <;> omega

theorem breakPatterns_holds {α : Type} (xs : List α) (a b : Nat) (hab : a ≤ b)
    (hb : b ≤ xs.length) : Holds (PermOf xs) (breakPatterns_func xs a b) := by
  unfold breakPatterns_func
  simp only
  by_cases h8 : b - a ≥ 8
  · rw [if_pos h8]
    have hbl := bitsLen_bounds (b - a) (b - a) (Nat.le_refl _)
    exact breakPatternsLoop_holds a (b - a) _ _ 3 _ xs (by omega)
      (by unfold nextPowerOfTwo; omega) (by unfold nextPowerOfTwo; omega) (by omega) (by omega)
  · rw [if_neg h8]
    exact Holds.intro (List.Perm.refl xs)


theorem pdqsortLoop_holds {α : Type} (less : Nat → Nat → Bool) :
    ∀ (fuel : Nat) (xs : List α) (a b limit : Nat) (wasBalanced wasPartitioned : Bool),
      a ≤ b → b ≤ xs.length → b - a < fuel →
      Holds (PermOf xs) (pdqsortLoop less fuel xs a b limit wasBalanced wasPartitioned)
  | 0, _, _, _, _, _, _, _, _, h0 => absurd h0 (by omega)
  | fuel + 1, xs, a, b, limit, wb, wp, hab, hb, hf => by
    unfold pdqsortLoop
    simp only
    by_cases h12 : b - a ≤ 12
    · rw [if_pos h12]
      exact insertionSort_holds less xs a b hb
    rw [if_neg h12]
    by_cases hl0 : limit = 0
    · rw [if_pos hl0]
      exact heapSort_holds less xs a b hab hb
    rw [if_neg hl0]
    -- breakPatterns
    have st1 : Holds (fun s : List α × Nat => s.1.Perm xs)
        (if wb = false then (breakPatterns_func xs a b).map fun d => (d, limit - 1)
          else some (xs, limit)) := by
      split
      · exact (breakPatterns_holds xs a b hab hb).map fun _ h => h
      · exact Holds.intro (List.Perm.refl xs)
    refine st1.bind ?_
    intro s1 hs1
    have hl1 := hs1.length_eq
    have hpv := choosePivot_func_bounds less a b (by omega)
    -- choosePivot and reverseRange
    have st2 : Holds (fun s : List α × Nat × sortedHint => s.1.Perm s1.1 ∧ a ≤ s.2.1 ∧ s.2.1 < b)
        (if (choosePivot_func less a b).2 = sortedHint.decreasingHint then
          (reverseRange_func s1.1 a b).map fun d =>
            (d, (b - 1) - ((choosePivot_func less a b).1 - a), sortedHint.increasingHint)
          else some (s1.1, (choosePivot_func less a b).1, (choosePivot_func less a b).2)) := by
      split
      · refine (reverseRange_holds s1.1 a b (by omega) (by omega)).map fun d hd => ⟨hd, ?_, ?_⟩
        · show a ≤ (b - 1) - ((choosePivot_func less a b).1 - a)
          omega
        · show (b - 1) - ((choosePivot_func less a b).1 - a) < b
          omega
      · exact Holds.intro ⟨List.Perm.refl _, hpv.1, hpv.2⟩
    refine st2.bind ?_
    intro s2 hs2
    have hl2 := hs2.1.length_eq
    -- partialInsertionSort
    have st3 : Holds (fun s : List α × Bool => s.1.Perm s2.1)
        (if wb = true ∧ wp = true ∧ s2.2.2 = sortedHint.increasingHint then
          partialInsertionSort_func less s2.1 a b else some (s2.1, false)) := by
      split
      · exact partialInsertionSort_holds less s2.1 a b (by omega) (by omega)
      · exact Holds.intro (List.Perm.refl _)
    refine st3.bind ?_
    intro s3 hs3
    have hl3 := hs3.length_eq
    have hp3 : s3.1.Perm xs := (hs3.trans hs2.1).trans hs1
    by_cases hsorted : s3.2 = true
    · rw [if_pos hsorted]
      exact Holds.intro hp3
    rw [if_neg hsorted]
    by_cases heq : a > 0 ∧ less (a - 1) s2.2.1 = false
    · rw [if_pos heq]
      refine (partitionEqual_holds less s3.1 a b s2.2.1 (by omega) hs2.2.1 hs2.2.2).bind ?_
      intro s4 hs4
      have hl4 := hs4.1.length_eq
      exact (pdqsortLoop_holds less fuel s4.1 s4.2 b _ wb wp (by have := hs4.2.2; omega)
        (by omega) (by have := hs4.2.1; omega)).mono fun r hr => (hr.trans hs4.1).trans hp3
    rw [if_neg heq]
    refine (partition_holds less s3.1 a b s2.2.1 (by omega) hs2.2.1 hs2.2.2).bind ?_
    intro s4 hs4
    have hl4 := hs4.1.length_eq
    have hm1 := hs4.2.1
    have hm2 := hs4.2.2
    split
    · refine (pdqsortLoop_holds less fuel s4.1 a s4.2.1 _ true true (by omega) (by omega)
        (by omega)).bind ?_
      intro d hd
      have hl5 := hd.length_eq
      exact (pdqsortLoop_holds less fuel d (s4.2.1 + 1) b _ _ _ (by omega) (by omega)
        (by omega)).mono fun r hr => ((hr.trans hd).trans hs4.1).trans hp3
    · refine (pdqsortLoop_holds less fuel s4.1 (s4.2.1 + 1) b _ true true (by omega) (by omega)
        (by omega)).bind ?_
      intro d hd
      have hl5 := hd.length_eq
      exact (pdqsortLoop_holds less fuel d a s4.2.1 _ _ _ (by omega) (by omega)
        (by omega)).mono fun r hr => ((hr.trans hd).trans hs4.1).trans hp3

/-- `sort.Slice` returns, for every comparator and every slice, a rearrangement of the slice:
no swap is out of range and the fuel is never exhausted. -/
theorem sortSlice_holds {α : Type} (less : Nat → Nat → Bool) (xs : List α) :
    Holds (PermOf xs) (sortSlice less xs) :=
  pdqsortLoop_holds less _ xs 0 xs.length _ true true (Nat.zero_le _) (Nat.le_refl _) (by omega)

theorem shuffleLoop_holds {α : Type} (rnd : Nat → Nat) :
    ∀ (i : Nat) (xs : List α), i ≤ xs.length - 1 → Holds (PermOf xs) (shuffleLoop rnd i xs)
  | 0, xs, _ => Holds.intro (List.Perm.refl xs)
  | i + 1, xs, hi => by
    unfold shuffleLoop
    have hmod : rnd (i + 1) % (i + 2) < i + 2 := Nat.mod_lt _ (by omega)
    exact (swap_holds xs _ _ (by omega) (by omega)).andThen fun ys hys =>
      shuffleLoop_holds rnd i ys (by omega)

/-- `rand.Shuffle` returns, for every outcome of the generator, a rearrangement of the slice. -/
theorem randShuffle_holds {α : Type} (rnd : Nat → Nat) (xs : List α) :
    Holds (PermOf xs) (randShuffle rnd xs) :=
  shuffleLoop_holds rnd _ xs (Nat.le_refl _)


/-! ## The builder in closed form -/

theorem generate_eq : generate = standardDeck := by decide

theorem generate_length : generate.length = 52 := by decide

theorem contains_eq (l : List String) (s : String) : contains l s = decide (s ∈ l) := by
  induction l with
  | nil => simp [contains]
  | cons x t ih =>
    unfold contains
    by_cases h : x = s
    · simp [h]
    · rw [if_neg h, ih]
      have h2 : ¬ s = x := fun e => h e.symm
      simp [h2]

theorem foldl_keep {α : Type} (p : α → Bool) (cs : List α) :
    ∀ init : List α,
      cs.foldl (fun acc c => if p c = false then acc ++ [c] else acc) init =
        init ++ cs.filter (fun c => !p c) := by
  induction cs with
  | nil => intro init; simp
  | cons c t ih =>
    intro init
    rw [List.foldl_cons, ih]
    cases hp : p c <;> simp [hp]

theorem filterLoop_eq (S : List String) (cards : List Card) :
    filterLoop S cards = cards.filter (fun c => decide (c.Rank ∉ S)) := by
  unfold filterLoop
  rw [foldl_keep (fun c => contains S c.Rank) cards []]
  simp [contains_eq]

theorem appendJokers_eq (n : Int) (cards : List Card) :
    appendJokers n cards = cards ++ List.replicate n.toNat joker := by
  unfold appendJokers
  generalize n.toNat = k
  induction k generalizing cards with
  | zero => simp
  | succ k ih =>
    rw [List.range_succ, List.foldl_append, ih]
    simp [List.replicate_succ']

theorem applyOptions_eq (rnd : Nat → Nat) (cards : List Card) (opt : Options) :
    applyOptions rnd cards opt =
      (arrange rnd cards opt).map (finish opt.numJokers opt.filterRanks) := by
  rcases opt with ⟨sorting, shuffle, nj, fr, cd⟩
  have key : ∀ (X : Option (List Card)) (Y : List Card → Option (List Card))
      (F : List Card → List Card),
      (X.bind fun c1 => (Y c1).bind fun c2 => some (F c2)) = (X.bind Y).map F := by
    intro X Y F
    cases X with
    | none => rfl
    | some c1 =>
      simp only [Option.some_bind]
      cases Y c1 <;> rfl
  unfold applyOptions arrange
  simp only [appendJokers_eq]
  cases sorting <;> cases fr <;> simp only [finish, filterLoop_eq] <;> exact key _ _ _

theorem arrange_holds (rnd : Nat → Nat) (cards : List Card) (opt : Options) :
    Holds (PermOf cards) (arrange rnd cards opt) := by
  unfold arrange
  have s1 : Holds (PermOf cards) (match opt.sorting with
      | some less => sortSlice less cards
      | none => some cards) := by
    cases opt.sorting with
    | none => exact Holds.intro (List.Perm.refl _)
    | some less => exact sortSlice_holds less cards
  refine s1.andThen fun ys _ => ?_
  split
  · exact randShuffle_holds rnd ys
  · exact Holds.intro (List.Perm.refl _)

theorem New_eq (rnd : Nat → Nat) (options : List DeckOption) :
    New rnd options = (arrange rnd generate (collectOptions options)).map
      (finish (collectOptions options).numJokers (collectOptions options).filterRanks) := by
  unfold New
  exact applyOptions_eq rnd generate _

theorem collectOptions_append (opts : List DeckOption) (o : DeckOption) :
    collectOptions (opts ++ [o]) = o (collectOptions opts) := by
  simp [collectOptions, List.foldl_append]


theorem New_def (rnd : Nat → Nat) (options : List DeckOption) :
    New rnd options = applyOptions rnd generate (collectOptions options) := rfl

theorem arrange_congr (rnd : Nat → Nat) (cards : List Card) (o1 o2 : Options)
    (h1 : o1.sorting = o2.sorting) (h2 : o1.shuffle = o2.shuffle) :
    arrange rnd cards o1 = arrange rnd cards o2 := by
  unfold arrange
  rw [h1, h2]

theorem applyOptions_congr (rnd : Nat → Nat) (cards : List Card) (o1 o2 : Options)
    (h : SameButComposed o1 o2) : applyOptions rnd cards o1 = applyOptions rnd cards o2 := by
  rw [applyOptions_eq, applyOptions_eq, arrange_congr rnd cards o1 o2 h.1 h.2.1, h.2.2.1, h.2.2.2]

theorem mutator_sameButComposed (c : OptionCall) (o1 o2 : Options)
    (h : SameButComposed o1 o2) : SameButComposed (c.mutator o1) (c.mutator o2) := by
  obtain ⟨h1, h2, h3, h4⟩ := h
  cases c <;>
    simp [OptionCall.mutator, SameButComposed, WithSorting, WithShuffle, WithJokers,
      WithFilterRanks, WithComposedDeck, h1, h2, h3, h4]

theorem foldl_sameButComposed (cs : List OptionCall) :
    ∀ o1 o2 : Options, SameButComposed o1 o2 →
      SameButComposed
        ((cs.map OptionCall.mutator).foldl (fun opt option => option opt) o1)
        ((cs.map OptionCall.mutator).foldl (fun opt option => option opt) o2) := by
  induction cs with
  | nil => intro o1 o2 h; exact h
  | cons c t ih =>
    intro o1 o2 h
    exact ih _ _ (mutator_sameButComposed c o1 o2 h)

theorem finish_perm (n : Int) (f : Option (List String)) (xs ys : List Card)
    (h : xs.Perm ys) : (finish n f xs).Perm (finish n f ys) := by
  unfold finish
  cases f with
  | none => exact h.append_right _
  | some S => exact (h.append_right _).filter _

theorem finish_length (n : Int) (f : Option (List String)) (cs : List Card)
    (h : cs.Perm standardDeck) :
    ((finish n f cs).length : Int) = 52 + max n 0 - removed n f := by
  have hn : ((n.toNat : Nat) : Int) = max n 0 := by omega
  have hlen : cs.length = 52 := by rw [h.length_eq]; decide
  unfold finish removed
  cases f with
  | none =>
    simp only [List.length_append, List.length_replicate, hlen]
    omega
  | some S =>
    simp only
    have hp : (cs ++ List.replicate n.toNat joker).Perm
        (standardDeck ++ List.replicate n.toNat joker) := h.append_right _
    have hsplit := List.length_eq_length_filter_add
      (l := cs ++ List.replicate n.toNat joker) (fun c : Card => decide (c.Rank ∈ S))
    have hc := (hp.filter (fun c : Card => decide (c.Rank ∈ S))).length_eq
    have hl : (cs ++ List.replicate n.toNat joker).length = 52 + n.toNat := by
      simp [hlen]
    have e : (fun c : Card => decide (c.Rank ∉ S)) =
        (fun c : Card => !decide (c.Rank ∈ S)) := by
      funext c; simp
    rw [e]
    omega


theorem arrange_default (rnd : Nat → Nat) (cards : List Card) (o : Options)
    (h1 : o.sorting = none) (h2 : o.shuffle = false) : arrange rnd cards o = some cards := by
  unfold arrange
  rw [h1, h2]
  rfl

theorem New_holds (rnd : Nat → Nat) (options : List DeckOption) :
    ∃ cs, cs.Perm standardDeck ∧
      arrange rnd generate (collectOptions options) = some cs ∧
      New rnd options = some (finish (collectOptions options).numJokers
        (collectOptions options).filterRanks cs) := by
  obtain ⟨cs, hcs, hp⟩ := arrange_holds rnd generate (collectOptions options)
  refine ⟨cs, generate_eq ▸ hp, hcs, ?_⟩
  rw [New_eq, hcs]
  rfl

/-! ## A comparator that finds the slice in order -/

theorem insertionSortInner_noop {α : Type} (less : Nat → Nat → Bool) (a j : Nat) (xs : List α)
    (h : 0 < j → less j (j - 1) = false) : insertionSortInner less a j xs = some xs := by
  cases j with
  | zero => rfl
  | succ j =>
    unfold insertionSortInner
    rw [if_neg]
    intro hc
    have h2 := h (by omega)
    rw [Nat.add_sub_cancel] at h2
    rw [h2] at hc
    exact absurd hc.2 (by decide)

theorem insertionSortLoop_noop {α : Type} (less : Nat → Nat → Bool) (a b : Nat) (xs : List α)
    (h : ∀ x, 0 < x → x < b → less x (x - 1) = false) :
    ∀ (fuel i : Nat), 0 < fuel → b + 1 ≤ fuel + i →
      insertionSortLoop less a b fuel i xs = some xs
  | 0, _, h0, _ => absurd h0 (by omega)
  | fuel + 1, i, _, hf => by
    unfold insertionSortLoop
    by_cases hi : i < b
    · rw [if_pos hi, insertionSortInner_noop less a i xs (fun h0 => h i h0 hi),
        Option.some_bind]
      exact insertionSortLoop_noop less a b xs h fuel (i + 1) (by omega) (by omega)
    · rw [if_neg hi]

theorem scanUp_all (test : Nat → Bool) (j : Nat) :
    ∀ (fuel i : Nat), i ≤ j + 1 → j + 2 ≤ fuel + i → (∀ x, i ≤ x → x ≤ j → test x = true) →
      scanUp test j fuel i = some (j + 1)
  | 0, i, h1, h2, _ => absurd h2 (by omega)
  | fuel + 1, i, h1, h2, h => by
    unfold scanUp
    by_cases hi : i ≤ j
    · rw [if_pos ⟨hi, h i (Nat.le_refl _) hi⟩]
      exact scanUp_all test j fuel (i + 1) (by omega) (by omega)
        fun x hx1 hx2 => h x (by omega) hx2
    · rw [if_neg (fun hc => hi hc.1)]
      congr 1
      omega

theorem median_func_noop (less : Nat → Nat → Bool) (a b c s : Nat)
    (h1 : less b a = false) (h2 : less c b = false) : median_func less a b c s = (b, s) := by
  simp [median_func, order2_func, h1, h2]

theorem choosePivot_func_noop (less : Nat → Nat → Bool) (n : Nat) (hn : 12 < n)
    (h : ∀ i j, i < j → j < n → less j i = false) :
    (choosePivot_func less 0 n).2 = sortedHint.increasingHint := by
  have hq : 3 ≤ n / 4 := by omega
  have hm : ∀ x s, 0 < x → x + 1 < n → medianAdjacent_func less x s = (x, s) := by
    intro x s hx0 hx
    unfold medianAdjacent_func
    exact median_func_noop less _ _ _ s (h _ _ (by omega) (by omega)) (h _ _ (by omega) (by omega))
  have hmid : median_func less (0 + n / 4 * 1) (0 + n / 4 * 2) (0 + n / 4 * 3) 0 =
      (0 + n / 4 * 2, 0) :=
    median_func_noop less _ _ _ 0 (h _ _ (by omega) (by omega)) (h _ _ (by omega) (by omega))
  unfold choosePivot_func
  simp only [Nat.sub_zero]
  rw [if_pos (by omega : n ≥ 8)]
  by_cases h50 : n ≥ 50
  · rw [if_pos h50, hm _ _ (by omega) (by omega), hm _ _ (by omega) (by omega),
      hm _ _ (by omega) (by omega), hmid]
    rfl
  · rw [if_neg h50, hmid]
    rfl

/-- When the comparator never calls a later position less than an earlier one, `sort.Slice`
leaves the slice as it is. -/
theorem sortSlice_noop {α : Type} (less : Nat → Nat → Bool) (xs : List α)
    (h : ∀ i j, i < j → j < xs.length → less j i = false) : sortSlice less xs = some xs := by
  have hadj : ∀ x, 0 < x → x < xs.length → less x (x - 1) = false := by
    intro x hx0 hx
    exact h (x - 1) x (by omega) hx
  unfold sortSlice pdqsort_func
  rw [Nat.sub_zero]
  unfold pdqsortLoop
  simp only [Nat.sub_zero]
  by_cases h12 : xs.length ≤ 12
  · rw [if_pos h12]
    exact insertionSortLoop_noop less 0 xs.length xs hadj _ _ (by omega) (by omega)
  rw [if_neg h12]
  have hlim : bitsLen xs.length xs.length ≠ 0 := by
    intro hz
    have := (bitsLen_bounds xs.length xs.length (Nat.le_refl _)).1
    rw [hz] at this
    omega
  rw [if_neg hlim]
  have hhint := choosePivot_func_noop less xs.length (by omega) h
  have hscan : scanUp (fun x => !less x (x - 1)) (xs.length - 1) (xs.length + 1) (0 + 1) =
      some xs.length := by
    have := scanUp_all (fun x => !less x (x - 1)) (xs.length - 1) (xs.length + 1) (0 + 1)
      (by omega) (by omega) (fun x hx1 hx2 => by
        show (!less x (x - 1)) = true
        rw [hadj x (by omega) (by omega)]
        rfl)
    rw [this]
    congr 1
    omega
  have hpart : partialInsertionSort_func less xs 0 xs.length = some (xs, true) := by
    unfold partialInsertionSort_func partialInsertionSortLoop
    rw [hscan]
    simp
  simp [hhint, hpart]


theorem laterSuitFirst_strictWeak : StrictWeak laterSuitFirst := by
  refine ⟨?_, ?_, ?_⟩
  · intro c
    simp [laterSuitFirst]
  · intro c1 c2 c3
    simp only [laterSuitFirst, decide_eq_true_eq]
    omega
  · intro c1 c2 c3
    simp only [laterSuitFirst, decide_eq_false_iff_not]
    omega

theorem positional_strictWeak (lt : Card → Card → Bool) (h : StrictWeak lt) :
    StrictWeak (positional lt) :=
  ⟨fun _ => h.1 _, fun _ _ _ => h.2.1 _ _ _, fun _ _ _ => h.2.2 _ _ _⟩

/-! ## The claims -/

/-- C1: `New()` with no options returns exactly the standard deck (suits Hearts, Diamonds,
Clubs, Spades; in each suit the ranks "1", ..., "10", "J", "Q", "K"): 52 cards, 13 per suit,
every rank once per suit, the ace as rank "1" and no card of rank "A". -/
theorem new_no_options (rnd : Nat → Nat) :
    New rnd [] = some standardDeck ∧
    standardDeck.length = 52 ∧
    (∀ s ∈ ["Hearts", "Diamonds", "Clubs", "Spades"],
      (standardDeck.filter fun c => decide (c.Suit = s)).length = 13) ∧
    (∀ s ∈ ["Hearts", "Diamonds", "Clubs", "Spades"],
      ∀ k ∈ ["1", "2", "3", "4", "5", "6", "7", "8", "9", "10", "J", "Q", "K"],
        standardDeck.count { Suit := s, Rank := k } = 1) ∧
    (∀ c ∈ standardDeck, c.Rank ≠ "A") ∧
    standardDeck.head? = some { Suit := "Hearts", Rank := "1" } := by
  refine ⟨?_, by decide, by decide, by decide, by decide, by decide⟩
  rw [New_eq, arrange_default rnd generate _ rfl rfl, generate_eq]
  rfl

/-- C2 (as stated, refuted): with `WithJokers(-1)` and no filter the result has 52 cards, not
`52 + (-1) - 0 = 51`. -/
theorem new_length_negative_jokers :
    ∃ r, New (fun _ => 0) [WithJokers (-1)] = some r ∧
      (r.length : Int) ≠ 52 + (-1) - removed (-1) none := by
  refine ⟨_, rfl, ?_⟩
  decide

/-- C2 (amended): for every list of option mutators and every outcome of the random source,
`New` returns a deck of exactly `52 + max(numJokers, 0) - removed` cards, where `removed`
counts the cards (jokers included) with a rank in the filter set among the 52 base cards
followed by the appended jokers. -/
theorem new_length (rnd : Nat → Nat) (options : List DeckOption) :
    ∃ r, New rnd options = some r ∧
      (r.length : Int) = 52 + max (collectOptions options).numJokers 0 -
        removed (collectOptions options).numJokers (collectOptions options).filterRanks := by
  obtain ⟨cs, hp, _, hr⟩ := New_holds rnd options
  exact ⟨_, hr, finish_length _ _ cs hp⟩

/-- C3: with the other options fixed and no filter among them, adding `WithFilterRanks(S)`
returns the unfiltered result restricted, in the same order, to the cards whose rank is not
in `S`. -/
theorem new_filter_restricts (rnd : Nat → Nat) (opts : List DeckOption) (S : List String)
    (h : (collectOptions opts).filterRanks = none) :
    ∃ r, New rnd opts = some r ∧
      New rnd (opts ++ [WithFilterRanks (some S)]) =
        some (r.filter fun c => decide (c.Rank ∉ S)) := by
  obtain ⟨cs, _, hcs, hr⟩ := New_holds rnd opts
  refine ⟨_, hr, ?_⟩
  have ha : arrange rnd generate (collectOptions (opts ++ [WithFilterRanks (some S)])) =
      some cs := by
    rw [collectOptions_append, ← hcs]
    exact arrange_congr rnd generate _ _ rfl rfl
  rw [New_eq, ha, collectOptions_append, h]
  rfl

/-- An instance of `new_filter_restricts`: two jokers, then the filter `["2", "Joker"]`. -/
theorem new_filter_restricts_witness :
    (collectOptions [WithJokers 2]).filterRanks = none ∧
    ∃ r, New (fun _ => 0) [WithJokers 2] = some r ∧
      New (fun _ => 0) ([WithJokers 2] ++ [WithFilterRanks (some ["2", "Joker"])]) =
        some (r.filter fun c => decide (c.Rank ∉ ["2", "Joker"])) :=
  ⟨rfl, new_filter_restricts (fun _ => 0) [WithJokers 2] ["2", "Joker"] rfl⟩

/-- C4: for a joker count `n ≥ 0` and no filter, the result is the 52-card result of the same
options with zero jokers, followed by exactly `n` cards of rank "Joker" and suit "Joker". -/
theorem new_jokers_last (rnd : Nat → Nat) (opts : List DeckOption) (n : Int) (hn : 0 ≤ n)
    (h : (collectOptions opts).filterRanks = none) :
    ∃ r0 js, New rnd (opts ++ [WithJokers 0]) = some r0 ∧ r0.length = 52 ∧
      (js.length : Int) = n ∧ (∀ c ∈ js, c = { Suit := "Joker", Rank := "Joker" }) ∧
      New rnd (opts ++ [WithJokers n]) = some (r0 ++ js) := by
  obtain ⟨cs, hp, hcs, _⟩ := New_holds rnd opts
  have ha : ∀ k, arrange rnd generate (collectOptions (opts ++ [WithJokers k])) = some cs := by
    intro k
    rw [collectOptions_append, ← hcs]
    exact arrange_congr rnd generate _ _ rfl rfl
  have hf : ∀ k, (collectOptions (opts ++ [WithJokers k])).filterRanks = none := by
    intro k
    rw [collectOptions_append]
    exact h
  have hk : ∀ k, (collectOptions (opts ++ [WithJokers k])).numJokers = k := by
    intro k
    rw [collectOptions_append]
    rfl
  have hnew : ∀ k, New rnd (opts ++ [WithJokers k]) =
      some (cs ++ List.replicate k.toNat joker) := by
    intro k
    rw [New_eq, ha k, hf k, hk k]
    rfl
  refine ⟨cs, List.replicate n.toNat joker, ?_, ?_, ?_, ?_, hnew n⟩
  · rw [hnew 0]; simp
  · rw [hp.length_eq]; decide
  · simp only [List.length_replicate]; omega
  · intro c hc
    exact List.eq_of_mem_replicate hc

/-- An instance of `new_jokers_last`: a shuffled deck and three jokers. -/
theorem new_jokers_last_witness :
    (0 : Int) ≤ 3 ∧ (collectOptions [WithShuffle]).filterRanks = none ∧
    ∃ r0 js, New (fun i => i / 2) ([WithShuffle] ++ [WithJokers 0]) = some r0 ∧
      r0.length = 52 ∧ (js.length : Int) = 3 ∧
      (∀ c ∈ js, c = { Suit := "Joker", Rank := "Joker" }) ∧
      New (fun i => i / 2) ([WithShuffle] ++ [WithJokers 3]) = some (r0 ++ js) :=
  ⟨by decide, rfl, new_jokers_last (fun i => i / 2) [WithShuffle] 3 (by decide) rfl⟩


theorem collectOptions_insert (pre post : List OptionCall) (o : DeckOption) :
    collectOptions (pre.map OptionCall.mutator ++ o :: post.map OptionCall.mutator) =
      (post.map OptionCall.mutator).foldl (fun opt option => option opt)
        (o (collectOptions (pre.map OptionCall.mutator))) := by
  simp [collectOptions, List.foldl_append]

theorem collectOptions_concat (pre post : List OptionCall) :
    collectOptions (pre.map OptionCall.mutator ++ post.map OptionCall.mutator) =
      (post.map OptionCall.mutator).foldl (fun opt option => option opt)
        (collectOptions (pre.map OptionCall.mutator)) := by
  simp [collectOptions, List.foldl_append]

/-- C5: the deck multiplicity has no effect.  Adding `WithComposedDeck(n)`, for any integer
`n`, anywhere in a list of option-constructor calls leaves the result of `New` unchanged;
`applyOptions` does not read the field; and `New(WithComposedDeck(n))` is the single 52-card
standard deck. -/
theorem composed_deck_ignored (rnd : Nat → Nat) (n : Int) :
    (∀ pre post : List OptionCall,
      New rnd (pre.map OptionCall.mutator ++ WithComposedDeck n ::
          post.map OptionCall.mutator) =
        New rnd (pre.map OptionCall.mutator ++ post.map OptionCall.mutator)) ∧
    (∀ (cards : List Card) (opt : Options),
      applyOptions rnd cards { opt with composedDeck := n } = applyOptions rnd cards opt) ∧
    New rnd [WithComposedDeck n] = some standardDeck := by
  refine ⟨?_, ?_, ?_⟩
  · intro pre post
    rw [New_def, New_def, collectOptions_insert, collectOptions_concat]
    exact applyOptions_congr rnd generate _ _
      (foldl_sameButComposed post _ _ ⟨rfl, rfl, rfl, rfl⟩)
  · intro cards opt
    exact applyOptions_congr rnd cards _ _ ⟨rfl, rfl, rfl, rfl⟩
  · rw [New_eq, arrange_default rnd generate _ rfl rfl, generate_eq]
    rfl

/-- C6: shuffling preserves the multiset of cards.  For every option list and all outcomes of
the random source, the result of `New` with `WithShuffle()` added is a permutation of the result
of `New` with the option list as it is. -/
theorem shuffle_is_permutation (rnd rnd0 : Nat → Nat) (opts : List DeckOption) :
    ∃ r s, New rnd (opts ++ [WithShuffle]) = some r ∧ New rnd0 opts = some s ∧ r.Perm s := by
  obtain ⟨cs, hp, _, hr⟩ := New_holds rnd (opts ++ [WithShuffle])
  obtain ⟨ds, hq, _, hs⟩ := New_holds rnd0 opts
  refine ⟨_, _, hr, hs, ?_⟩
  rw [collectOptions_append]
  exact finish_perm _ _ cs ds (hp.trans hq.symm)

/-- C7 (as stated, refuted): the positional comparator built from `laterSuitFirst` is a strict
weak ordering under which the ace and the eight of Diamonds (base positions 13 and 20) are
equal-order; the base deck has the ace before the eight, the output of
`New(WithSorting(less))` has the eight (position 0) before the ace (position 6). -/
theorem sorting_not_stable :
    StrictWeak (positional laterSuitFirst) ∧
    positional laterSuitFirst 13 20 = false ∧ positional laterSuitFirst 20 13 = false ∧
    standardDeck[13]? = some { Suit := "Diamonds", Rank := "1" } ∧
    standardDeck[20]? = some { Suit := "Diamonds", Rank := "8" } ∧
    ∃ r, New (fun _ => 0) [WithSorting (positional laterSuitFirst)] = some r ∧
      r[0]? = some { Suit := "Diamonds", Rank := "8" } ∧
      r[6]? = some { Suit := "Diamonds", Rank := "1" } :=
  ⟨positional_strictWeak _ laterSuitFirst_strictWeak, by decide, by decide, by decide,
    by decide, ⟨_, rfl, by decide, by decide⟩⟩

/-- C7 (amended): when the comparator never calls a later base position less than an earlier
one, `New(WithSorting(less))` is the base deck unchanged, so all cards, equal-order ones
included, keep their relative order. -/
theorem sorting_keeps_ordered_deck (rnd : Nat → Nat) (less : Nat → Nat → Bool)
    (h : ∀ i j, i < j → j < 52 → less j i = false) :
    New rnd [WithSorting less] = some standardDeck := by
  have hs : sortSlice less generate = some generate :=
    sortSlice_noop less generate (by rw [generate_length]; exact h)
  have ha : arrange rnd generate (collectOptions [WithSorting less]) = some generate := by
    show (sortSlice less generate).bind _ = _
    rw [hs]
    rfl
  rw [New_eq, ha, generate_eq]
  show some (standardDeck ++ List.replicate (0 : Int).toNat joker) = _
  simp

/-- An instance of `sorting_keeps_ordered_deck`: the comparator `earlierSuitFirst`, under which
the cards of one suit (positions 13 and 20, say) are equal-order. -/
theorem sorting_keeps_ordered_deck_witness :
    (∀ i j, i < j → j < 52 → earlierSuitFirst j i = false) ∧
    earlierSuitFirst 13 20 = false ∧ earlierSuitFirst 20 13 = false ∧
    New (fun _ => 0) [WithSorting earlierSuitFirst] = some standardDeck :=
  ⟨fun i j hij _ => by simp only [earlierSuitFirst, decide_eq_false_iff_not]; omega,
    by decide, by decide,
    sorting_keeps_ordered_deck (fun _ => 0) earlierSuitFirst
      (fun i j hij _ => by simp only [earlierSuitFirst, decide_eq_false_iff_not]; omega)⟩

/-- C8: for every comparator whatsoever the sort step returns (no index is out of range and
the loops end), and `New(WithSorting(less))` is a permutation of the 52-card standard deck. -/
theorem sorting_total_permutation (rnd : Nat → Nat) (less : Nat → Nat → Bool) :
    (∀ cards : List Card, ∃ r, sortSlice less cards = some r ∧ r.Perm cards) ∧
    ∃ r, New rnd [WithSorting less] = some r ∧ r.Perm standardDeck := by
  refine ⟨fun cards => sortSlice_holds less cards, ?_⟩
  obtain ⟨cs, hp, _, hr⟩ := New_holds rnd [WithSorting less]
  refine ⟨_, hr, ?_⟩
  have e : finish (collectOptions [WithSorting less]).numJokers
      (collectOptions [WithSorting less]).filterRanks cs = cs := by
    show cs ++ List.replicate (0 : Int).toNat joker = cs
    simp
  rw [e]
  exact hp

/-- C9 (the code at a failing input): `laterSuitFirst` is a strict weak ordering on cards, and
with the positional comparator built from it the result of `New(WithSorting(less))` is not
ordered: position 0 holds the eight of Diamonds, position 8 the ace of Spades, and the ace of
Spades is less than the eight of Diamonds. -/
theorem sorting_result_not_ordered :
    StrictWeak laterSuitFirst ∧
    ∃ r, New (fun _ => 0) [WithSorting (positional laterSuitFirst)] = some r ∧
      r[0]? = some { Suit := "Diamonds", Rank := "8" } ∧
      r[8]? = some { Suit := "Spades", Rank := "1" } ∧
      laterSuitFirst { Suit := "Spades", Rank := "1" } { Suit := "Diamonds", Rank := "8" } = true :=
  ⟨laterSuitFirst_strictWeak, ⟨_, rfl, by decide, by decide, by decide⟩⟩

/-- C10: `New(WithJokers(2), WithFilterRanks(["2", "3"]))` returns exactly 46 cards, none of
rank "2" or "3" and exactly 2 of rank "Joker". -/
theorem new_two_jokers_without_twos_threes (rnd : Nat → Nat) :
    ∃ r, New rnd [WithJokers 2, WithFilterRanks (some ["2", "3"])] = some r ∧
      r.length = 46 ∧ (∀ c ∈ r, c.Rank ≠ "2" ∧ c.Rank ≠ "3") ∧
      (r.filter fun c => decide (c.Rank = "Joker")).length = 2 := by
  have h : New rnd [WithJokers 2, WithFilterRanks (some ["2", "3"])] =
      New (fun _ => 0) [WithJokers 2, WithFilterRanks (some ["2", "3"])] := rfl
  rw [h]
  refine ⟨_, rfl, ?_⟩
  decide

theorem filter_notIn_idem (S : List String) (cs : List Card) :
    (cs.filter fun c => decide (c.Rank ∉ S)).filter (fun c => decide (c.Rank ∉ S)) =
      cs.filter fun c => decide (c.Rank ∉ S) := by
  rw [List.filter_filter]
  congr 1
  funext c
  simp

/-- C11: filtering is idempotent.  For every card sequence and every rank list `S`, the filter
loop applied to an already filtered sequence returns it unchanged, and so does `applyOptions`
with only `filterRanks = S` set. -/
theorem filter_idempotent (rnd : Nat → Nat) (cs : List Card) (S : List String) :
    filterLoop S (filterLoop S cs) = filterLoop S cs ∧
    ∃ r, applyOptions rnd cs { defaultOptions with filterRanks := some S } = some r ∧
      r = filterLoop S cs ∧
      applyOptions rnd r { defaultOptions with filterRanks := some S } = some r := by
  have h1 : filterLoop S (filterLoop S cs) = filterLoop S cs := by
    rw [filterLoop_eq, filterLoop_eq, filter_notIn_idem]
  have h2 : ∀ xs : List Card,
      applyOptions rnd xs { defaultOptions with filterRanks := some S } =
        some (filterLoop S xs) := by
    intro xs
    rw [applyOptions_eq, arrange_default rnd xs _ rfl rfl, filterLoop_eq]
    show some ((xs ++ List.replicate (0 : Int).toNat joker).filter _) = _
    simp
  exact ⟨h1, _, h2 cs, rfl, by rw [h2, h1]⟩

/-- C12: a joker count `n ≤ 0` appends no joker.  With the other options fixed and no joker
option among them, adding `WithJokers(n)` returns the same deck, and `New` does return. -/
theorem nonpositive_jokers_append_nothing (rnd : Nat → Nat) (opts : List DeckOption) (n : Int)
    (hn : n ≤ 0) (h : (collectOptions opts).numJokers = 0) :
    ∃ r, New rnd opts = some r ∧ New rnd (opts ++ [WithJokers n]) = some r := by
  obtain ⟨cs, _, hcs, hr⟩ := New_holds rnd opts
  refine ⟨_, hr, ?_⟩
  have ha : arrange rnd generate (collectOptions (opts ++ [WithJokers n])) = some cs := by
    rw [collectOptions_append, ← hcs]
    exact arrange_congr rnd generate _ _ rfl rfl
  rw [New_eq, ha, collectOptions_append, h]
  show some (finish n (collectOptions opts).filterRanks cs) = _
  have e : n.toNat = (0 : Int).toNat := by omega
  unfold finish
  rw [e]

/-- An instance of `nonpositive_jokers_append_nothing`: a filter, then `WithJokers(-3)`. -/
theorem nonpositive_jokers_append_nothing_witness :
    (-3 : Int) ≤ 0 ∧ (collectOptions [WithFilterRanks (some ["K"])]).numJokers = 0 ∧
    ∃ r, New (fun _ => 0) [WithFilterRanks (some ["K"])] = some r ∧
      New (fun _ => 0) ([WithFilterRanks (some ["K"])] ++ [WithJokers (-3)]) = some r :=
  ⟨by decide, rfl,
    nonpositive_jokers_append_nothing (fun _ => 0) [WithFilterRanks (some ["K"])] (-3)
      (by decide) rfl⟩

theorem mutator_comm (x y : OptionCall) (h : x.field ≠ y.field) (o : Options) :
    x.mutator (y.mutator o) = y.mutator (x.mutator o) := by
  cases x <;> cases y <;> first
    | rfl
    | exact absurd rfl h

theorem foldl_mutator_perm {l1 l2 : List OptionCall} (hp : l1.Perm l2) :
    l1.Pairwise (fun x y => x.field ≠ y.field) →
    ∀ o : Options,
      (l1.map OptionCall.mutator).foldl (fun opt option => option opt) o =
        (l2.map OptionCall.mutator).foldl (fun opt option => option opt) o := by
  induction hp with
  | nil => intro _ _; rfl
  | cons x _ ih =>
    intro hpw o
    simp only [List.map_cons, List.foldl_cons]
    exact ih (List.Pairwise.of_cons hpw) _
  | swap x y l =>
    intro hpw o
    simp only [List.map_cons, List.foldl_cons]
    rw [mutator_comm x y (fun e => (List.rel_of_pairwise_cons hpw (List.mem_cons_self x l)) e.symm)]
  | trans h1 _ ih1 ih2 =>
    intro hpw o
    have hsymm : ∀ a b : OptionCall, a.field ≠ b.field → b.field ≠ a.field :=
      fun _ _ hab e => hab e.symm
    rw [ih1 hpw o]
    exact ih2 ((h1.pairwise_iff (fun {a b} hab => hsymm a b hab)).mp hpw) o

/-- C13: the build steps do not depend on the order in which the options are supplied.  For
every list of option-constructor calls that set pairwise different fields, every permutation of
the list gives the same result of `New`. -/
theorem option_order_irrelevant (rnd : Nat → Nat) (calls calls2 : List OptionCall)
    (hp : calls.Perm calls2) (hd : calls.Pairwise (fun x y => x.field ≠ y.field)) :
    New rnd (calls.map OptionCall.mutator) = New rnd (calls2.map OptionCall.mutator) ∧
    ∀ n S, New rnd [WithJokers n, WithFilterRanks S] =
      New rnd [WithFilterRanks S, WithJokers n] := by
  refine ⟨?_, fun _ _ => rfl⟩
  rw [New_def, New_def]
  unfold collectOptions
  rw [foldl_mutator_perm hp hd defaultOptions]

/-- An instance of `option_order_irrelevant`: four options of different kinds, reversed. -/
theorem option_order_irrelevant_witness :
    [OptionCall.withJokers 2, OptionCall.withFilterRanks (some ["2", "3"]),
      OptionCall.withShuffle, OptionCall.withComposedDeck 3].Perm
      [OptionCall.withComposedDeck 3, OptionCall.withShuffle,
        OptionCall.withFilterRanks (some ["2", "3"]), OptionCall.withJokers 2] ∧
    [OptionCall.withJokers 2, OptionCall.withFilterRanks (some ["2", "3"]),
      OptionCall.withShuffle, OptionCall.withComposedDeck 3].Pairwise
      (fun x y => x.field ≠ y.field) ∧
    New (fun i => i / 3)
      ([OptionCall.withJokers 2, OptionCall.withFilterRanks (some ["2", "3"]),
        OptionCall.withShuffle, OptionCall.withComposedDeck 3].map OptionCall.mutator) =
    New (fun i => i / 3)
      ([OptionCall.withComposedDeck 3, OptionCall.withShuffle,
        OptionCall.withFilterRanks (some ["2", "3"]), OptionCall.withJokers 2].map
          OptionCall.mutator) ∧
    ∀ n S, New (fun i => i / 3) [WithJokers n, WithFilterRanks S] =
      New (fun i => i / 3) [WithFilterRanks S, WithJokers n] :=
  ⟨List.reverse_perm [OptionCall.withComposedDeck 3, OptionCall.withShuffle,
      OptionCall.withFilterRanks (some ["2", "3"]), OptionCall.withJokers 2],
    by simp [OptionCall.field],
    option_order_irrelevant (fun i => i / 3) _ _
      (List.reverse_perm [OptionCall.withComposedDeck 3, OptionCall.withShuffle,
        OptionCall.withFilterRanks (some ["2", "3"]), OptionCall.withJokers 2])
      (by simp [OptionCall.field])⟩

theorem finish_mem (n : Int) (f : Option (List String)) (cs : List Card) (c : Card)
    (h : c ∈ finish n f cs) : c ∈ cs ∨ c = joker := by
  unfold finish at h
  cases f with
  | none =>
    rcases List.mem_append.mp h with h1 | h1
    · exact Or.inl h1
    · exact Or.inr (List.eq_of_mem_replicate h1)
  | some S =>
    rcases List.mem_append.mp (List.mem_of_mem_filter h) with h1 | h1
    · exact Or.inl h1
    · exact Or.inr (List.eq_of_mem_replicate h1)

theorem New_mem (rnd : Nat → Nat) (options : List DeckOption) (r : List Card)
    (h : New rnd options = some r) (c : Card) (hc : c ∈ r) : c ∈ standardDeck ∨ c = joker := by
  obtain ⟨cs, hp, _, hr⟩ := New_holds rnd options
  rw [hr] at h
  cases h
  rcases finish_mem _ _ cs c hc with h1 | h1
  · exact Or.inl (hp.subset h1)
  · exact Or.inr h1

/-- C14: jokers are removable by the filter.  For every joker count `n` and every filter list
`S` that contains "Joker", `New(WithJokers(n), WithFilterRanks(S))` has no card of rank "Joker"
and equals `New(WithFilterRanks(S))`. -/
theorem jokers_filtered_out (rnd : Nat → Nat) (n : Int) (S : List String)
    (hS : "Joker" ∈ S) :
    ∃ r, New rnd [WithJokers n, WithFilterRanks (some S)] = some r ∧
      (∀ c ∈ r, c.Rank ≠ "Joker") ∧ New rnd [WithFilterRanks (some S)] = some r := by
  have h1 : New rnd [WithJokers n, WithFilterRanks (some S)] =
      some ((generate ++ List.replicate n.toNat joker).filter fun c => decide (c.Rank ∉ S)) := by
    rw [New_eq, arrange_default rnd generate _ rfl rfl]
    rfl
  have h2 : New rnd [WithFilterRanks (some S)] =
      some ((generate ++ List.replicate (0 : Int).toNat joker).filter
        fun c => decide (c.Rank ∉ S)) := by
    rw [New_eq, arrange_default rnd generate _ rfl rfl]
    rfl
  have hj : (List.replicate n.toNat joker).filter (fun c => decide (c.Rank ∉ S)) = [] := by
    rw [List.filter_eq_nil_iff]
    intro c hc
    rw [List.eq_of_mem_replicate hc]
    simpa [joker] using hS
  refine ⟨_, h1, ?_, ?_⟩
  · intro c hc hr
    have := (List.mem_filter.mp hc).2
    rw [hr] at this
    simp [hS] at this
  · rw [h2, List.filter_append, List.filter_append, hj]
    simp

/-- An instance of `jokers_filtered_out`: five jokers and the filter `["Joker", "K"]`. -/
theorem jokers_filtered_out_witness :
    "Joker" ∈ ["Joker", "K"] ∧
    ∃ r, New (fun _ => 0) [WithJokers 5, WithFilterRanks (some ["Joker", "K"])] = some r ∧
      (∀ c ∈ r, c.Rank ≠ "Joker") ∧
      New (fun _ => 0) [WithFilterRanks (some ["Joker", "K"])] = some r :=
  ⟨by decide, jokers_filtered_out (fun _ => 0) 5 ["Joker", "K"] (by decide)⟩

/-- C15 (the code at a failing input): `New(WithComposedDeck(3))` is the single standard deck
of 52 cards, not three concatenated decks of 156 cards. -/
theorem composed_deck_three_is_one_deck (rnd : Nat → Nat) :
    New rnd [WithComposedDeck 3] = some standardDeck ∧ standardDeck.length = 52 ∧
    standardDeck ≠ standardDeck ++ standardDeck ++ standardDeck ∧
    standardDeck.length ≠ 52 * 3 := by
  refine ⟨?_, by decide, by decide, by decide⟩
  rw [New_eq, arrange_default rnd generate _ rfl rfl, generate_eq]
  rfl

/-- C16: each option constructor sets exactly one field of the record and leaves the other
four as they were; `New` starts from the defaults (nil, false, 0, nil, 1) and applies the
mutators from left to right; so of two options of the same kind the later one wins, as in
`New(WithJokers(a), WithJokers(b)) = New(WithJokers(b))`. -/
theorem options_set_one_field (rnd : Nat → Nat) :
    (∀ less o, (WithSorting less o).sorting = some less ∧
      (WithSorting less o).shuffle = o.shuffle ∧ (WithSorting less o).numJokers = o.numJokers ∧
      (WithSorting less o).filterRanks = o.filterRanks ∧
      (WithSorting less o).composedDeck = o.composedDeck) ∧
    (∀ o, (WithShuffle o).shuffle = true ∧
      (WithShuffle o).sorting = o.sorting ∧ (WithShuffle o).numJokers = o.numJokers ∧
      (WithShuffle o).filterRanks = o.filterRanks ∧
      (WithShuffle o).composedDeck = o.composedDeck) ∧
    (∀ n o, (WithJokers n o).numJokers = n ∧
      (WithJokers n o).sorting = o.sorting ∧ (WithJokers n o).shuffle = o.shuffle ∧
      (WithJokers n o).filterRanks = o.filterRanks ∧
      (WithJokers n o).composedDeck = o.composedDeck) ∧
    (∀ f o, (WithFilterRanks f o).filterRanks = f ∧
      (WithFilterRanks f o).sorting = o.sorting ∧ (WithFilterRanks f o).shuffle = o.shuffle ∧
      (WithFilterRanks f o).numJokers = o.numJokers ∧
      (WithFilterRanks f o).composedDeck = o.composedDeck) ∧
    (∀ n o, (WithComposedDeck n o).composedDeck = n ∧
      (WithComposedDeck n o).sorting = o.sorting ∧ (WithComposedDeck n o).shuffle = o.shuffle ∧
      (WithComposedDeck n o).numJokers = o.numJokers ∧
      (WithComposedDeck n o).filterRanks = o.filterRanks) ∧
    ((collectOptions []).sorting = none ∧ (collectOptions []).shuffle = false ∧
      (collectOptions []).numJokers = 0 ∧ (collectOptions []).filterRanks = none ∧
      (collectOptions []).composedDeck = 1) ∧
    (∀ opts m, collectOptions (opts ++ [m]) = m (collectOptions opts)) ∧
    (∀ (x y : OptionCall) o, x.field = y.field → y.mutator (x.mutator o) = y.mutator o) ∧
    (∀ opts a b, New rnd (opts ++ [WithJokers a, WithJokers b]) =
      New rnd (opts ++ [WithJokers b])) ∧
    (∀ a b, New rnd [WithJokers a, WithJokers b] = New rnd [WithJokers b]) := by
  refine ⟨fun _ _ => ⟨rfl, rfl, rfl, rfl, rfl⟩, fun _ => ⟨rfl, rfl, rfl, rfl, rfl⟩,
    fun _ _ => ⟨rfl, rfl, rfl, rfl, rfl⟩, fun _ _ => ⟨rfl, rfl, rfl, rfl, rfl⟩,
    fun _ _ => ⟨rfl, rfl, rfl, rfl, rfl⟩, ⟨rfl, rfl, rfl, rfl, rfl⟩,
    collectOptions_append, ?_, ?_, fun _ _ => rfl⟩
  · intro x y o h
    cases x <;> cases y <;> first
      | rfl
      | exact absurd h (by simp [OptionCall.field])
  · intro opts a b
    rw [New_def, New_def]
    have e : opts ++ [WithJokers a, WithJokers b] = (opts ++ [WithJokers a]) ++ [WithJokers b] := by
      simp
    rw [e, collectOptions_append, collectOptions_append, collectOptions_append]
    rfl

theorem New_with_filter (rnd : Nat → Nat) (opts : List DeckOption)
    (f : Option (List String)) :
    New rnd (opts ++ [WithFilterRanks f]) =
      (arrange rnd generate (collectOptions opts)).map
        (finish (collectOptions opts).numJokers f) := by
  rw [New_eq, collectOptions_append]
  rfl

/-- C17: an empty, non-nil filter list removes nothing.  With the other options fixed and no
filter among them, adding `WithFilterRanks([]string{})` returns the same deck, although the
record then holds a non-nil filter and the filter loop runs. -/
theorem empty_filter_removes_nothing (rnd : Nat → Nat) (opts : List DeckOption)
    (h : (collectOptions opts).filterRanks = none) :
    (collectOptions (opts ++ [WithFilterRanks (some [])])).filterRanks = some [] ∧
    ∃ r, New rnd opts = some r ∧ New rnd (opts ++ [WithFilterRanks (some [])]) = some r := by
  obtain ⟨cs, _, hcs, hr⟩ := New_holds rnd opts
  refine ⟨by rw [collectOptions_append]; rfl, _, hr, ?_⟩
  rw [New_with_filter, hcs, h]
  simp [finish]

/-- An instance of `empty_filter_removes_nothing`: a shuffled deck with two jokers. -/
theorem empty_filter_removes_nothing_witness :
    (collectOptions [WithShuffle, WithJokers 2]).filterRanks = none ∧
    (collectOptions ([WithShuffle, WithJokers 2] ++ [WithFilterRanks (some [])])).filterRanks =
      some [] ∧
    ∃ r, New (fun i => i / 2) [WithShuffle, WithJokers 2] = some r ∧
      New (fun i => i / 2) ([WithShuffle, WithJokers 2] ++ [WithFilterRanks (some [])]) =
        some r :=
  ⟨rfl, empty_filter_removes_nothing (fun i => i / 2) [WithShuffle, WithJokers 2] rfl⟩

/-- C18: for every list of option mutators and every shuffle outcome, `New` returns a deck in
which every card has a rank among "1", ..., "10", "J", "Q", "K", "Joker" and a suit among
"Hearts", "Diamonds", "Clubs", "Spades", "Joker", the rank being "Joker" exactly when the suit
is. -/
theorem cards_well_formed (rnd : Nat → Nat) (options : List DeckOption) :
    ∃ r, New rnd options = some r ∧ ∀ c ∈ r,
      c.Rank ∈ ["1", "2", "3", "4", "5", "6", "7", "8", "9", "10", "J", "Q", "K", "Joker"] ∧
      c.Suit ∈ ["Hearts", "Diamonds", "Clubs", "Spades", "Joker"] ∧
      (c.Rank = "Joker" ↔ c.Suit = "Joker") := by
  obtain ⟨cs, _, _, hr⟩ := New_holds rnd options
  refine ⟨_, hr, ?_⟩
  intro c hc
  have hstd : ∀ c ∈ standardDeck,
      c.Rank ∈ ["1", "2", "3", "4", "5", "6", "7", "8", "9", "10", "J", "Q", "K", "Joker"] ∧
      c.Suit ∈ ["Hearts", "Diamonds", "Clubs", "Spades", "Joker"] ∧
      (c.Rank = "Joker" ↔ c.Suit = "Joker") := by decide
  rcases New_mem rnd options _ hr c hc with h1 | h1
  · exact hstd c h1
  · rw [h1]
    decide

/-- C19: filter membership is string equality on the generated ranks.  `WithFilterRanks(["A"])`
returns all 52 base cards unchanged; `WithFilterRanks(["1"])` removes exactly the four cards of
rank "1", keeps the four cards of rank "10" and returns 48 cards. -/
theorem filter_is_exact_match (rnd : Nat → Nat) :
    New rnd [WithFilterRanks (some ["A"])] = some standardDeck ∧
    (standardDeck.filter fun c => decide (c.Rank = "1")).length = 4 ∧
    ∃ r, New rnd [WithFilterRanks (some ["1"])] = some r ∧
      r = standardDeck.filter (fun c => decide (c.Rank ≠ "1")) ∧
      r.length = 48 ∧ (∀ c ∈ r, c.Rank ≠ "1") ∧
      (r.filter fun c => decide (c.Rank = "10")).length = 4 := by
  have h1 : New rnd [WithFilterRanks (some ["A"])] =
      New (fun _ => 0) [WithFilterRanks (some ["A"])] := rfl
  have h2 : New rnd [WithFilterRanks (some ["1"])] =
      New (fun _ => 0) [WithFilterRanks (some ["1"])] := rfl
  rw [h1, h2]
  refine ⟨by decide, by decide, _, rfl, by decide, by decide, by decide, by decide⟩

theorem standardDeck_nodup : standardDeck.Nodup := by decide

theorem finish_count (n : Int) (f : Option (List String)) (cs : List Card) (c : Card)
    (hc : c ≠ joker) : (finish n f cs).count c ≤ cs.count c := by
  have happ : (cs ++ List.replicate n.toNat joker).count c = cs.count c := by
    rw [List.count_append, List.count_replicate]
    simp [hc.symm]
  unfold finish
  cases f with
  | none => exact Nat.le_of_eq happ
  | some S =>
    exact Nat.le_trans ((List.filter_sublist _).count_le c) (Nat.le_of_eq happ)

/-- C20: for every list of option mutators and every shuffle outcome, `New` returns a deck in
which every card other than the joker occurs at most once: only jokers can be duplicated. -/
theorem only_jokers_repeat (rnd : Nat → Nat) (options : List DeckOption) :
    ∃ r, New rnd options = some r ∧
      ∀ c : Card, c ≠ { Suit := "Joker", Rank := "Joker" } → r.count c ≤ 1 := by
  obtain ⟨cs, hp, _, hr⟩ := New_holds rnd options
  refine ⟨_, hr, ?_⟩
  intro c hc
  have h1 := finish_count (collectOptions options).numJokers
    (collectOptions options).filterRanks cs c hc
  have h2 : cs.count c = standardDeck.count c := hp.count_eq c
  have h3 := List.nodup_iff_count_le_one.mp standardDeck_nodup c
  omega

end Decks
